import Mathlib

/-! # Reputation engine (reputation/reputation.go)

A shallow embedding of the subjective-logic reputation engine.

Modelling conventions.

* Go's float64 is idealised as exact arithmetic in a linearly ordered field F
  (rounding, NaN and infinities are outside the model). Every definition is
  generic in F, so it runs on rational inputs; statements that need the real
  hyperbolic tangent are made at F = ℝ.
* The functions of Go's math package that are not field operations
  (math.Tanh, math.Sin, math.Pi) are passed as a MathFns record.
  math.Abs and math.Max are the field's absolute value and maximum.
* A time.Time is a point of F measured in seconds, so that
  now.Sub(t).Seconds() is now - t.
* Go's int event counts are integers, converted to F as float64(n) does.
* A ReputationManager reads, of each registered peer, only the peer's
  configuration and interaction log (recommendations are one hop), so a peer
  is modelled by an Agent holding these two fields. Go's peer map holds
  pointers, so a query reads each peer's log as it is when the query runs; the
  peers field of a manager value is therefore the state of the registered
  peers at the time of the query, not at the time of registration.
* sort.Slice belongs to Go's standard library; it is a parameter of
  SelectOptimalProvider, constrained in the theorems by its documented contract.
-/

namespace Reputation

/-- Functions and constants of Go's math package used by the engine. -/
structure MathFns (F : Type) where
  Tanh : F → F
  Sin : F → F
  Pi : F

/-- Read-only scalar weights (config/config.go). -/
structure Config (F : Type) where
  Gamma : F
  Rho1 : F
  Rho2 : F
  Zeta : F
  Sigma : F
  Theta : F
  Tau : F
  Psi1 : F
  Psi2 : F
  Psi3 : F
  TRecent : F

/-- One trajectory sample: speed, normalised location, heading in radians. -/
structure Vector (F : Type) where
  Speed : F
  Location : F
  Direction : F

/-- One interaction event. -/
structure Interaction (F : Type) where
  From : String
  To : String
  PosEvents : Int
  NegEvents : Int
  Timestamp : F
  CommQuality : F
  TrajUser : List (Vector F)
  TrajProvider : List (Vector F)

/-- Subjective-logic opinion triple. -/
structure Opinion (F : Type) where
  Belief : F
  Disbelief : F
  Uncertainty : F

/-- The configuration and the interaction log of one manager: everything the
methods other than the recommendation walk read. -/
structure Agent (F : Type) where
  cfg : Config F
  interactions : List (Interaction F)

/-- A manager: its own configuration and log, and the map from neighbour id
to the registered peer. -/
structure ReputationManager (F : Type) extends Agent F where
  peers : String → Option (Agent F)

variable {F : Type} [LinearOrderedField F]

/-- NewReputationManager: empty log, empty peer map. -/
def NewReputationManager (cfg : Config F) : ReputationManager F :=
  { cfg := cfg, interactions := [], peers := fun _ => none }

/-- AddInteraction appends a record to the log. -/
def AddInteraction (rm : ReputationManager F) (inter : Interaction F) : ReputationManager F :=
  { rm with interactions := rm.interactions ++ [inter] }

/-- Formula 1: local opinion (b, d, u) from evidence masses and communication
quality. The receiver is not read by the method. -/
def computeLocalOpinion (M : MathFns F) (alpha beta commQuality : F) : Opinion F :=
  let u := 1 - commQuality
  let total := alpha + beta
  if total > 0 then
    let scaleFactorPositive := M.Tanh (alpha / 30)
    let scaleFactorNegative := M.Tanh (beta / 50)
    let b := (1 - u) * (alpha / total) * scaleFactorPositive
    let d := (1 - u) * (beta / total) * scaleFactorNegative
    { Belief := b, Disbelief := d, Uncertainty := 1 - b - d }
  else
    { Belief := 0, Disbelief := 0, Uncertainty := u }

/-- Formula 2: T = b + gamma * u. -/
def opinionToReputation (cfg : Config F) (op : Opinion F) : F :=
  op.Belief + cfg.Gamma * op.Uncertainty

/-- Loop state of computeDirectOpinion. -/
structure DirectAcc (F : Type) where
  totalAlpha : F
  totalBeta : F
  avgCommQuality : F
  count : Nat

/-- One iteration of the loop of computeDirectOpinion. -/
def directStep (cfg : Config F) (target : String) (now : F)
    (acc : DirectAcc F) (inter : Interaction F) : DirectAcc F :=
  if inter.To ≠ target then acc
  else
    let deltaTime := now - inter.Timestamp
    if deltaTime ≤ cfg.TRecent then
      { totalAlpha := acc.totalAlpha + cfg.Zeta * cfg.Theta * (inter.PosEvents : F)
        totalBeta := acc.totalBeta + cfg.Zeta * cfg.Tau * (inter.NegEvents : F)
        avgCommQuality := acc.avgCommQuality + inter.CommQuality
        count := acc.count + 1 }
    else
      { totalAlpha := acc.totalAlpha + cfg.Sigma * cfg.Theta * (inter.PosEvents : F)
        totalBeta := acc.totalBeta + cfg.Sigma * cfg.Tau * (inter.NegEvents : F)
        avgCommQuality := acc.avgCommQuality + inter.CommQuality
        count := acc.count + 1 }

/-- Direct (local) opinion of an agent about a target at logical time now. -/
def computeDirectOpinion (M : MathFns F) (rm : Agent F) (target : String) (now : F) : Opinion F :=
  let acc := rm.interactions.foldl (directStep rm.cfg target now) ⟨0, 0, 0, 0⟩
  let avgCommQuality :=
    if acc.count > 0 then acc.avgCommQuality / (acc.count : F) else 0.5
  computeLocalOpinion M acc.totalAlpha acc.totalBeta avgCommQuality

/-- Loop state of the first loop of computeInteractionFrequency. -/
structure FreqAcc (F : Type) where
  recentPos : F
  recentNeg : F
  pastPos : F
  pastNeg : F

/-- One iteration of the first loop of computeInteractionFrequency. -/
def freqStep (cfg : Config F) (fromID toID : String) (now : F)
    (acc : FreqAcc F) (inter : Interaction F) : FreqAcc F :=
  if inter.From ≠ fromID ∨ inter.To ≠ toID then acc
  else
    let deltaTime := now - inter.Timestamp
    if deltaTime ≤ cfg.TRecent then
      { acc with recentPos := acc.recentPos + (inter.PosEvents : F)
                 recentNeg := acc.recentNeg + (inter.NegEvents : F) }
    else
      { acc with pastPos := acc.pastPos + (inter.PosEvents : F)
                 pastNeg := acc.pastNeg + (inter.NegEvents : F) }

/-- The Go statement counts[key] += v on a map[string]float64, the map kept as
an association list with one entry per key. -/
def mapAdd : List (String × F) → String → F → List (String × F)
  | [], key, v => [(key, 0 + v)]
  | (k, c) :: rest, key, v =>
    if k = key then (k, c + v) :: rest else (k, c) :: mapAdd rest key v

/-- One iteration of the second loop of computeInteractionFrequency. -/
def countsStep (cfg : Config F) (fromID : String) (now : F)
    (counts : List (String × F)) (inter : Interaction F) : List (String × F) :=
  if inter.From = fromID then
    let deltaTime := now - inter.Timestamp
    if deltaTime ≤ cfg.TRecent then
      let alpha_k := cfg.Zeta * cfg.Theta * (inter.PosEvents : F)
      let beta_k := cfg.Zeta * cfg.Tau * (inter.NegEvents : F)
      mapAdd counts inter.To (alpha_k + beta_k)
    else
      let alpha_k := cfg.Sigma * cfg.Theta * (inter.PosEvents : F)
      let beta_k := cfg.Sigma * cfg.Tau * (inter.NegEvents : F)
      mapAdd counts inter.To (alpha_k + beta_k)
  else counts

/-- Formulas 3-4: interaction frequency IF(from, to). -/
def computeInteractionFrequency (rm : Agent F) (fromID toID : String) (now : F) : F :=
  let acc := rm.interactions.foldl (freqStep rm.cfg fromID toID now) ⟨0, 0, 0, 0⟩
  let alpha := rm.cfg.Zeta * rm.cfg.Theta * acc.recentPos + rm.cfg.Sigma * rm.cfg.Theta * acc.pastPos
  let beta := rm.cfg.Zeta * rm.cfg.Tau * acc.recentNeg + rm.cfg.Sigma * rm.cfg.Tau * acc.pastNeg
  let N_ij := alpha + beta
  let counts := rm.interactions.foldl (countsStep rm.cfg fromID now) []
  let sumCount := counts.foldl (fun s kc => s + kc.2) 0
  let avgCount := if counts.length > 0 then sumCount / (counts.length : F) else 1
  if avgCount = 0 then 0 else N_ij / avgCount

/-- Formula 7: speed difference. -/
def computeSpeedDifference (traj1 traj2 : List (Vector F)) : F :=
  let sum1 := traj1.foldl (fun s v => s + v.Speed) 0
  let sum2 := traj2.foldl (fun s v => s + v.Speed) 0
  let avgSpeed1 := sum1 / (traj1.length : F)
  let avgSpeed2 := sum2 / (traj2.length : F)
  let maxSpeed := max avgSpeed1 avgSpeed2
  if maxSpeed = 0 then 0 else |avgSpeed1 - avgSpeed2| / maxSpeed

/-- The match test of the LCS table: |x - y| < threshold, threshold = 0.05. -/
def locMatch (x y : F) : Bool := decide (|x - y| < 0.05)

/-- Entries dp[i][j], dp[i][j+1], ... of row i of the LCS table, for the
element x = seq1[i-1]: the arguments are the rest of seq2 from index j-1 on,
the entries dp[i-1][j-1], dp[i-1][j], ... of the previous row, and
dp[i][j-1]. -/
def lcsRowFrom (x : F) : List F → List Nat → Nat → List Nat
  | y :: ys, diag :: up :: prev, left =>
    let cur := if locMatch x y then diag + 1 else max up left
    cur :: lcsRowFrom x ys (up :: prev) cur
  | _, _, _ => []

/-- Row i of the LCS table from row i-1; dp[i][0] = 0. -/
def lcsRow (seq2 : List F) (prev : List Nat) (x : F) : List Nat :=
  0 :: lcsRowFrom x seq2 prev 0

/-- The LCS dynamic program: returns dp[m][n]. -/
def computeLCS (seq1 seq2 : List F) : Nat :=
  let m := seq1.length
  let n := seq2.length
  if m = 0 ∨ n = 0 then 0
  else
    let dp := seq1.foldl (lcsRow seq2) (List.replicate (n + 1) 0)
    dp.getD n 0

/-- Formula 8: location difference, from the LCS of the location sequences. -/
def computeLocationDifference (traj1 traj2 : List (Vector F)) : F :=
  let loc1 := traj1.map (fun v => v.Location)
  let loc2 := traj2.map (fun v => v.Location)
  let lcsLen := computeLCS loc1 loc2
  let maxLen := max (loc1.length : F) (loc2.length : F)
  if maxLen = 0 then 0 else (maxLen - (lcsLen : F)) / maxLen

/-- Formula 9: direction difference. -/
def computeDirectionDifference (M : MathFns F) (traj1 traj2 : List (Vector F)) : F :=
  if traj1.length = 0 ∨ traj2.length = 0 then 0
  else
    let avgDir1 := traj1.foldl (fun s v => s + v.Direction) 0 / (traj1.length : F)
    let avgDir2 := traj2.foldl (fun s v => s + v.Direction) 0 / (traj2.length : F)
    let phi0 := |avgDir1 - avgDir2|
    let phi := if phi0 > M.Pi then 2 * M.Pi - phi0 else phi0
    if phi ≤ M.Pi / 4 then M.Sin phi
    else 0.5 + |M.Sin (phi + M.Pi / 4)| / 2

/-- Formulas 5-6: trajectory similarity SIM = 1 - DISS. -/
def computeTrajectorySimilarity (M : MathFns F) (cfg : Config F)
    (trajUser trajProvider : List (Vector F)) : F :=
  if trajUser.length = 0 ∨ trajProvider.length = 0 then 0
  else
    let speedDiff := computeSpeedDifference trajUser trajProvider
    let locationDiff := computeLocationDifference trajUser trajProvider
    let directionDiff := computeDirectionDifference M trajUser trajProvider
    let diss := cfg.Psi1 * speedDiff + cfg.Psi2 * locationDiff + cfg.Psi3 * directionDiff
    1 - diss

/-- Formula 10: integration weight of the edge from -> to. -/
def computeWeight (M : MathFns F) (rm : Agent F) (fromID toID : String)
    (trajUser trajProvider : List (Vector F)) (now : F) : F :=
  let interFreq := computeInteractionFrequency rm fromID toID now
  let trajSim := computeTrajectorySimilarity M rm.cfg trajUser trajProvider
  rm.cfg.Rho1 * interFreq + rm.cfg.Rho2 * trajSim

/-- Loop state of computeRecommendedOpinion. -/
structure RecAcc (F : Type) where
  bSum : F
  dSum : F
  uSum : F
  weightSum : F

/-- The trajectory pair of the first record of the log with the given sender
and recipient; two empty (nil) trajectories when there is none. -/
def edgeTrajectories (interactions : List (Interaction F)) (neighborID target : String) :
    List (Vector F) × List (Vector F) :=
  match interactions.find? (fun inter => inter.From = neighborID ∧ inter.To = target) with
  | some inter => (inter.TrajUser, inter.TrajProvider)
  | none => ([], [])

/-- One iteration of the loop of computeRecommendedOpinion. -/
def recStep (M : MathFns F) (peers : String → Option (Agent F)) (target : String) (now : F)
    (acc : RecAcc F) (neighborID : String) : RecAcc F :=
  match peers neighborID with
  | none => acc
  | some peer =>
    let neighborOpinion := computeDirectOpinion M peer target now
    let trajs := edgeTrajectories peer.interactions neighborID target
    let weight := computeWeight M peer neighborID target trajs.1 trajs.2 now
    { bSum := acc.bSum + weight * neighborOpinion.Belief
      dSum := acc.dSum + weight * neighborOpinion.Disbelief
      uSum := acc.uSum + weight * neighborOpinion.Uncertainty
      weightSum := acc.weightSum + weight }

/-- Formula 11: recommended opinion, the weighted average of the one-hop
neighbours direct opinions. -/
def computeRecommendedOpinion (M : MathFns F) (rm : ReputationManager F) (target : String)
    (neighbors : List String) (now : F) : Opinion F :=
  let acc := neighbors.foldl (recStep M rm.peers target now) ⟨0, 0, 0, 0⟩
  if acc.weightSum = 0 then { Belief := 0, Disbelief := 0, Uncertainty := 1 }
  else
    { Belief := acc.bSum / acc.weightSum
      Disbelief := acc.dSum / acc.weightSum
      Uncertainty := acc.uSum / acc.weightSum }

/-- Formulas 12-13: fusion of local and recommended opinion. The current policy
returns the local opinion. -/
def combineOpinions (local_ _recommended : Opinion F) : Opinion F := local_

/-- Formula 14: final reputation of target as seen by the manager. -/
def ComputeReputation (M : MathFns F) (rm : ReputationManager F) (_myID target : String)
    (neighbors : List String) (now : F) : F :=
  let localOpinion := computeDirectOpinion M rm.toAgent target now
  let recommendedOpinion := computeRecommendedOpinion M rm target neighbors now
  let finalOpinion := combineOpinions localOpinion recommendedOpinion
  opinionToReputation rm.cfg finalOpinion

/-- Entry of the slice sorted by SelectOptimalProvider. -/
structure candidateScore (F : Type) where
  id : String
  reputation : F

/-- The less function handed to sort.Slice: descending by reputation. -/
def scoreLess (a b : candidateScore F) : Bool := decide (a.reputation > b.reputation)

/-- SelectOptimalProvider: the id at index 0 after sorting the scored
candidates with sort.Slice, or the empty string for an empty candidate list.
The parameter sortSlice is Go's sort.Slice seen as a function from the less
function and the slice to the sorted slice; scores[0] on an empty result (which
no length-preserving sort produces) is rendered as the empty string. -/
def SelectOptimalProvider
    (sortSlice : (candidateScore F → candidateScore F → Bool) →
      List (candidateScore F) → List (candidateScore F))
    (M : MathFns F) (rm : ReputationManager F) (myID : String)
    (candidates neighbors : List String) (now : F) : String :=
  if candidates.length = 0 then ""
  else
    let scores := candidates.map fun candidate =>
      ({ id := candidate
         reputation := ComputeReputation M rm myID candidate neighbors now } : candidateScore F)
    match sortSlice scoreLess scores with
    | [] => ""
    | top :: _ => top.id

/-! ## Specification-side definitions

Quantities named by the specification, used to state the theorems. -/

/-- Recency weight of a record at logical time now: Zeta when
now - Timestamp <= TRecent, Sigma otherwise. -/
def recencyWeight (cfg : Config F) (now : F) (inter : Interaction F) : F :=
  if now - inter.Timestamp ≤ cfg.TRecent then cfg.Zeta else cfg.Sigma

/-- The records of a log whose recipient is the target, in log order. -/
def recordsTowards (log : List (Interaction F)) (target : String) : List (Interaction F) :=
  log.filter fun inter => inter.To = target

/-- Weighted positive mass of a list of records: the sum of w * Theta * PosEvents. -/
def posMass (cfg : Config F) (now : F) (recs : List (Interaction F)) : F :=
  (recs.map fun inter => recencyWeight cfg now inter * cfg.Theta * (inter.PosEvents : F)).sum

/-- Weighted negative mass of a list of records: the sum of w * Tau * NegEvents. -/
def negMass (cfg : Config F) (now : F) (recs : List (Interaction F)) : F :=
  (recs.map fun inter => recencyWeight cfg now inter * cfg.Tau * (inter.NegEvents : F)).sum

/-- Arithmetic mean of CommQuality over a list of records, 0.5 for the empty list. -/
def meanCommQuality (recs : List (Interaction F)) : F :=
  if recs.length = 0 then 0.5
  else (recs.map fun inter => inter.CommQuality).sum / (recs.length : F)

/-- A configuration used for concrete evaluations: Gamma = 0.5, Rho1 = Rho2 = 0.5,
Zeta = 0.7, Sigma = 0.3, Theta = Tau = 1, Psi1 = Psi2 = Psi3 = 1/3, TRecent = 5. -/
def sampleConfig : Config F :=
  { Gamma := 1 / 2, Rho1 := 1 / 2, Rho2 := 1 / 2, Zeta := 7 / 10, Sigma := 3 / 10
    Theta := 1, Tau := 1, Psi1 := 1 / 3, Psi2 := 1 / 3, Psi3 := 1 / 3, TRecent := 5 }

/-- The math package at F = ℝ: the real tanh, sin and pi. -/
noncomputable def realMath : MathFns ℝ := ⟨Real.tanh, Real.sin, Real.pi⟩

/-- The slice of scored candidates that SelectOptimalProvider hands to sort.Slice. -/
def scoresOf (M : MathFns F) (rm : ReputationManager F) (myID : String)
    (candidates neighbors : List String) (now : F) : List (candidateScore F) :=
  candidates.map fun candidate =>
    ({ id := candidate
       reputation := ComputeReputation M rm myID candidate neighbors now } : candidateScore F)

/-- Documented contract of sort.Slice, for the less function of
SelectOptimalProvider: the result is a rearrangement of the slice in which no
element is less than an element before it. -/
def IsSortSlice (sortSlice : (candidateScore F → candidateScore F → Bool) →
    List (candidateScore F) → List (candidateScore F)) : Prop :=
  ∀ l, (sortSlice scoreLess l).Perm l ∧
    (sortSlice scoreLess l).Pairwise fun a b => scoreLess b a = false

/-- An instance of the contract: insertion sort. -/
def stableSlice (less : candidateScore F → candidateScore F → Bool)
    (l : List (candidateScore F)) : List (candidateScore F) :=
  l.insertionSort fun a b => less b a = false

/-- An instance of the contract that is not stable: insertion sort of the
reversed slice, which puts the later of two tied entries first. -/
def lateTieSlice (less : candidateScore F → candidateScore F → Bool)
    (l : List (candidateScore F)) : List (candidateScore F) :=
  l.reverse.insertionSort fun a b => less b a = false

/-- The manager after k rounds, round j (j = 1, 2, ...) appending the record
recs j with AddInteraction. -/
def logAfterRounds (rm0 : ReputationManager F) (recs : Nat → Interaction F) (k : Nat) :
    ReputationManager F :=
  ((List.range k).map fun i => recs (i + 1)).foldl AddInteraction rm0

/-- Round times 0, 1, 2, 10, 11 for rounds 1 to 5: non-decreasing, with a gap
longer than the sample TRecent = 5 between rounds 3 and 4. -/
def agingTimes : Nat → F
  | 0 => 0
  | 1 => 0
  | 2 => 1
  | 3 => 2
  | 4 => 10
  | _ => 11

/-- The record of round j of an observer who sees one positive event of
target A (PosEvents = 1, NegEvents = 0, CommQuality = 0.9), stamped with the
round time t j. -/
def positiveRound (t : Nat → F) (j : Nat) : Interaction F :=
  ⟨"observer", "A", 1, 0, t j, 0.9, [], []⟩

/-- The record of round j of an observer who sees two negative events of
target A (PosEvents = 0, NegEvents = 2, CommQuality = 0.9), stamped with the
round time t j. -/
def negativeRound (t : Nat → F) (j : Nat) : Interaction F :=
  ⟨"observer", "A", 0, 2, t j, 0.9, [], []⟩

/-- Round times 1, 2, 3, ...: one second apart, so that five rounds fit in the
sample TRecent = 5. -/
def steadyTimes (j : Nat) : F := (j : F)

/-- A manager that has logged one positive interaction with "a" and one with
"b" (same counts, quality and time), and none with anybody else. -/
def tiedManager : ReputationManager F :=
  AddInteraction
    (AddInteraction (NewReputationManager sampleConfig) ⟨"me", "a", 1, 0, 0, 0.9, [], []⟩)
    ⟨"me", "b", 1, 0, 0, 0.9, [], []⟩

/-- Thirteen candidates: "a" at index 1 and "b" at index 12 tie for the best
score, the other eleven are unobserved. -/
def tiedCandidates : List String :=
  ["c0", "a", "c2", "c3", "c4", "c5", "c6", "c7", "c8", "c9", "c10", "c11", "b"]

/-- A common order-preserving subsequence of A and B under the tolerance
match: a list of pairs (x, y) whose first components form a subsequence of A
(strictly increasing indices into A), whose second components form a
subsequence of B, and with |x - y| < 0.05 in every pair. -/
def IsCommonMatching (ps : List (F × F)) (A B : List F) : Prop :=
  (ps.map Prod.fst).Sublist A ∧ (ps.map Prod.snd).Sublist B ∧
    ∀ p ∈ ps, |p.1 - p.2| < 0.05

/-- The textbook LCS recurrence on lists read from the front, with the
tolerance match in place of equality. -/
def lcsLen : List F → List F → Nat
  | [], _ => 0
  | _ :: _, [] => 0
  | x :: xs, y :: ys =>
    if locMatch x y then lcsLen xs ys + 1
    else max (lcsLen xs (y :: ys)) (lcsLen (x :: xs) ys)
termination_by l1 l2 => l1.length + l2.length

/-- Entries lcsLen A (y1 :: acc), lcsLen A (y2 :: y1 :: acc), ... for the
elements y1, y2, ... of a list: a table row expressed with lcsLen. -/
def rowFrom (A acc : List F) : List F → List Nat
  | [] => []
  | y :: ys => lcsLen A (y :: acc) :: rowFrom A (y :: acc) ys

/-- Arithmetic mean of the speeds of a trajectory. -/
def meanSpeed (traj : List (Vector F)) : F :=
  (traj.map fun v => v.Speed).sum / (traj.length : F)

/-- Arithmetic mean of the headings of a trajectory. -/
def meanDirection (traj : List (Vector F)) : F :=
  (traj.map fun v => v.Direction).sum / (traj.length : F)

/-- The angle phi that computeDirectionDifference feeds into its piecewise
formula: |meanA - meanB|, replaced by 2 * pi - |meanA - meanB| when it exceeds
pi. -/
def directionPhi (M : MathFns F) (traj1 traj2 : List (Vector F)) : F :=
  if |meanDirection traj1 - meanDirection traj2| > M.Pi then
    2 * M.Pi - |meanDirection traj1 - meanDirection traj2|
  else |meanDirection traj1 - meanDirection traj2|

/-- The records of a log with the given sender and recipient, in log order. -/
def recordsBetween (log : List (Interaction F)) (fromID toID : String) : List (Interaction F) :=
  log.filter fun inter => inter.From = fromID ∧ inter.To = toID

/-- Recency-and-decay weighted mass of a list of records: weighted positives
plus weighted negatives, with the weights of the direct opinion. -/
def weightedMass (cfg : Config F) (now : F) (recs : List (Interaction F)) : F :=
  posMass cfg now recs + negMass cfg now recs

/-- The distinct recipients that a sender has records toward. -/
def recipientsOf (log : List (Interaction F)) (fromID : String) : List String :=
  ((log.filter fun inter => inter.From = fromID).map fun inter => inter.To).dedup

/-- Arithmetic mean, over the distinct recipients of a sender, of the
weighted mass of the records from the sender to that recipient. -/
def averageMass (cfg : Config F) (now : F) (log : List (Interaction F)) (fromID : String) : F :=
  ((recipientsOf log fromID).map fun r =>
      weightedMass cfg now (recordsBetween log fromID r)).sum /
    ((recipientsOf log fromID).length : F)

/-- A record with both event counts multiplied by k. -/
def scaleEvents (k : Nat) (inter : Interaction F) : Interaction F :=
  { inter with PosEvents := (k : Int) * inter.PosEvents, NegEvents := (k : Int) * inter.NegEvents }

/-- Weighted mass of one record: w * Theta * PosEvents + w * Tau * NegEvents. -/
def recordMass (cfg : Config F) (now : F) (inter : Interaction F) : F :=
  recencyWeight cfg now inter * cfg.Theta * (inter.PosEvents : F)
    + recencyWeight cfg now inter * cfg.Tau * (inter.NegEvents : F)

/-- The neighbour ids of the list that are registered in the peer map, in list
order (an id listed twice appears twice), each with its peer. -/
def registeredNeighbors (peers : String → Option (Agent F)) (neighbors : List String) :
    List (String × Agent F) :=
  neighbors.filterMap fun id => (peers id).map fun peer => (id, peer)

/-- The weight of a registered neighbour x for a target:
Rho1 * computeInteractionFrequency(x, target) + Rho2 * computeTrajectorySimilarity
of the edge trajectories, all evaluated on the configuration and log of x. -/
def neighborWeight (M : MathFns F) (target : String) (now : F) (x : String × Agent F) : F :=
  x.2.cfg.Rho1 * computeInteractionFrequency x.2 x.1 target now
    + x.2.cfg.Rho2 * computeTrajectorySimilarity M x.2.cfg
        (edgeTrajectories x.2.interactions x.1 target).1
        (edgeTrajectories x.2.interactions x.1 target).2

/-! ## Lemmas -/

theorem foldl_directStep (cfg : Config F) (target : String) (now : F)
    (log : List (Interaction F)) (acc : DirectAcc F) :
    log.foldl (directStep cfg target now) acc =
      { totalAlpha := acc.totalAlpha + posMass cfg now (recordsTowards log target)
        totalBeta := acc.totalBeta + negMass cfg now (recordsTowards log target)
        avgCommQuality := acc.avgCommQuality +
          ((recordsTowards log target).map fun inter => inter.CommQuality).sum
        count := acc.count + (recordsTowards log target).length } := by
  induction log generalizing acc with
  | nil => simp [recordsTowards, posMass, negMass]
  | cons r rs ih =>
    rw [List.foldl_cons, ih]
    by_cases hto : r.To = target
    · by_cases hrec : now - r.Timestamp ≤ cfg.TRecent <;> rw [sub_le_iff_le_add] at hrec
      · simp [directStep, recordsTowards, posMass, negMass, recencyWeight, hto, hrec,
          List.filter_cons, add_assoc, Nat.add_comm]
      · simp [directStep, recordsTowards, posMass, negMass, recencyWeight, hto, hrec,
          List.filter_cons, add_assoc, Nat.add_comm]
    · simp [directStep, recordsTowards, hto, List.filter_cons]

theorem computeDirectOpinion_eq (M : MathFns F) (rm : Agent F) (target : String) (now : F) :
    computeDirectOpinion M rm target now =
      computeLocalOpinion M
        (posMass rm.cfg now (recordsTowards rm.interactions target))
        (negMass rm.cfg now (recordsTowards rm.interactions target))
        (meanCommQuality (recordsTowards rm.interactions target)) := by
  unfold computeDirectOpinion
  simp only [foldl_directStep, zero_add]
  unfold meanCommQuality
  by_cases h : (recordsTowards rm.interactions target).length = 0
  · simp [h]
  · have h' : (recordsTowards rm.interactions target).length > 0 := Nat.pos_of_ne_zero h
    simp [h, h']

theorem computeLocalOpinion_zero (M : MathFns F) (c : F) :
    computeLocalOpinion M 0 0 c = ⟨0, 0, 1 - c⟩ := by
  simp [computeLocalOpinion]

theorem computeLocalOpinion_pos (M : MathFns F) (p n c : F) (h : 0 < p + n) :
    computeLocalOpinion M p n c =
      ⟨c * (p / (p + n)) * M.Tanh (p / 30), c * (n / (p + n)) * M.Tanh (n / 50),
        1 - c * (p / (p + n)) * M.Tanh (p / 30) - c * (n / (p + n)) * M.Tanh (n / 50)⟩ := by
  simp [computeLocalOpinion, h]

theorem scoreLess_eq_false_iff (a b : candidateScore F) :
    scoreLess a b = false ↔ a.reputation ≤ b.reputation := by
  simp [scoreLess]

theorem insertionSort_scoreLess_sorted (l : List (candidateScore F)) :
    (l.insertionSort fun a b => scoreLess b a = false).Pairwise
      fun a b => scoreLess b a = false := by
  haveI : IsTotal (candidateScore F) (fun a b => scoreLess b a = false) :=
    ⟨fun a b => by
      simp only [scoreLess_eq_false_iff]
      exact le_total b.reputation a.reputation⟩
  haveI : IsTrans (candidateScore F) (fun a b => scoreLess b a = false) :=
    ⟨fun a b c hab hbc => by
      simp only [scoreLess_eq_false_iff] at *
      exact le_trans hbc hab⟩
  exact List.sorted_insertionSort _ l

theorem stableSlice_isSortSlice : IsSortSlice (stableSlice (F := F)) := fun l =>
  ⟨List.perm_insertionSort _ l, insertionSort_scoreLess_sorted l⟩

theorem lateTieSlice_isSortSlice : IsSortSlice (lateTieSlice (F := F)) := fun l =>
  ⟨(List.perm_insertionSort _ l.reverse).trans (List.reverse_perm l),
    insertionSort_scoreLess_sorted l.reverse⟩

theorem tanh_strictMono : StrictMono Real.tanh := by
  intro x y hxy
  rw [Real.tanh_eq_sinh_div_cosh, Real.tanh_eq_sinh_div_cosh,
    div_lt_div_iff₀ (Real.cosh_pos x) (Real.cosh_pos y)]
  have h : 0 < Real.sinh (y - x) := Real.sinh_pos_iff.2 (sub_pos.2 hxy)
  rw [Real.sinh_sub] at h
  linarith

theorem tanh_nonneg {x : ℝ} (hx : 0 ≤ x) : 0 ≤ Real.tanh x := by
  have h := tanh_strictMono.monotone hx
  rwa [Real.tanh_zero] at h

theorem tanh_pos {x : ℝ} (hx : 0 < x) : 0 < Real.tanh x := by
  have h := tanh_strictMono hx
  rwa [Real.tanh_zero] at h

theorem selectOptimalProvider_spec
    (sortSlice : (candidateScore F → candidateScore F → Bool) →
      List (candidateScore F) → List (candidateScore F))
    (hsort : IsSortSlice sortSlice) (M : MathFns F) (rm : ReputationManager F) (myID : String)
    (candidates neighbors : List String) (now : F) (hne : candidates ≠ []) :
    ∃ top rest, sortSlice scoreLess (scoresOf M rm myID candidates neighbors now) = top :: rest ∧
      SelectOptimalProvider sortSlice M rm myID candidates neighbors now = top.id ∧
      top.id ∈ candidates ∧
      top.reputation = ComputeReputation M rm myID top.id neighbors now ∧
      ∀ c ∈ candidates, ComputeReputation M rm myID c neighbors now ≤ top.reputation := by
  obtain ⟨hperm, hsorted⟩ := hsort (scoresOf M rm myID candidates neighbors now)
  cases hs : sortSlice scoreLess (scoresOf M rm myID candidates neighbors now) with
  | nil =>
    rw [hs] at hperm
    have := hperm.length_eq
    simp [scoresOf] at this
    exact absurd (List.length_eq_zero.1 this.symm) hne
  | cons top rest =>
    rw [hs] at hperm hsorted
    have hlen : ¬ candidates.length = 0 := fun h => hne (List.length_eq_zero.1 h)
    have htop : top ∈ scoresOf M rm myID candidates neighbors now :=
      hperm.subset (List.mem_cons_self _ _)
    obtain ⟨c0, hc0, hc0top⟩ := List.mem_map.1 htop
    refine ⟨top, rest, rfl, ?_, ?_, ?_, ?_⟩
    · unfold SelectOptimalProvider
      rw [if_neg hlen]
      show (match sortSlice scoreLess (scoresOf M rm myID candidates neighbors now) with
        | [] => ""
        | top :: _ => top.id) = top.id
      rw [hs]
    · rw [← hc0top]; exact hc0
    · rw [← hc0top]
    · intro c hc
      have hmem : (⟨c, ComputeReputation M rm myID c neighbors now⟩ : candidateScore F) ∈
          top :: rest := hperm.symm.subset (List.mem_map.2 ⟨c, hc, rfl⟩)
      rcases List.mem_cons.1 hmem with h | h
      · rw [← h]
      · have := (List.pairwise_cons.1 hsorted).1 _ h
        exact (scoreLess_eq_false_iff _ _).1 this

theorem computeReputation_eq (M : MathFns F) (rm : ReputationManager F)
    (myID target : String) (neighbors : List String) (now : F) :
    ComputeReputation M rm myID target neighbors now =
      opinionToReputation rm.cfg (computeLocalOpinion M
        (posMass rm.cfg now (recordsTowards rm.interactions target))
        (negMass rm.cfg now (recordsTowards rm.interactions target))
        (meanCommQuality (recordsTowards rm.interactions target))) := by
  simp only [ComputeReputation, combineOpinions, computeDirectOpinion_eq]

theorem foldl_AddInteraction {G : Type} (l : List (Interaction G)) (rm : ReputationManager G) :
    (l.foldl AddInteraction rm).interactions = rm.interactions ++ l ∧
    (l.foldl AddInteraction rm).cfg = rm.cfg := by
  induction l generalizing rm with
  | nil => simp
  | cons r rs ih =>
    rw [List.foldl_cons]
    obtain ⟨h1, h2⟩ := ih (AddInteraction rm r)
    rw [h1, h2]
    simp [AddInteraction]

theorem recordsTowards_logAfterRounds {G : Type} (rm0 : ReputationManager G)
    (recs : Nat → Interaction G)
    (target : String) (k : Nat)
    (hbase : ∀ r ∈ rm0.interactions, r.To ≠ target) (hto : ∀ j, (recs j).To = target) :
    recordsTowards (logAfterRounds rm0 recs k).interactions target =
      (List.range k).map fun i => recs (i + 1) := by
  unfold logAfterRounds recordsTowards
  rw [(foldl_AddInteraction _ rm0).1, List.filter_append]
  have h1 : rm0.interactions.filter (fun inter => decide (inter.To = target)) = [] := by
    rw [List.filter_eq_nil_iff]
    intro r hr
    simpa using hbase r hr
  have h2 : ((List.range k).map fun i => recs (i + 1)).filter
      (fun inter => decide (inter.To = target)) = (List.range k).map fun i => recs (i + 1) := by
    rw [List.filter_eq_self]
    intro r hr
    obtain ⟨i, -, rfl⟩ := List.mem_map.1 hr
    simpa using hto (i + 1)
  rw [h1, h2, List.nil_append]

theorem posMass_const (cfg : Config F) (now : F) (recs : List (Interaction F)) (w : F) (e : Int)
    (hw : ∀ r ∈ recs, recencyWeight cfg now r = w) (he : ∀ r ∈ recs, r.PosEvents = e) :
    posMass cfg now recs = (recs.length : F) * (w * cfg.Theta * (e : F)) := by
  induction recs with
  | nil => simp [posMass]
  | cons r rs ih =>
    have ih' := ih (fun x hx => hw x (List.mem_cons_of_mem _ hx))
      (fun x hx => he x (List.mem_cons_of_mem _ hx))
    unfold posMass at ih' ⊢
    rw [List.map_cons, List.sum_cons, ih', hw r (List.mem_cons_self _ _),
      he r (List.mem_cons_self _ _)]
    simp only [List.length_cons, Nat.cast_add, Nat.cast_one]
    ring

theorem negMass_const (cfg : Config F) (now : F) (recs : List (Interaction F)) (w : F) (e : Int)
    (hw : ∀ r ∈ recs, recencyWeight cfg now r = w) (he : ∀ r ∈ recs, r.NegEvents = e) :
    negMass cfg now recs = (recs.length : F) * (w * cfg.Tau * (e : F)) := by
  induction recs with
  | nil => simp [negMass]
  | cons r rs ih =>
    have ih' := ih (fun x hx => hw x (List.mem_cons_of_mem _ hx))
      (fun x hx => he x (List.mem_cons_of_mem _ hx))
    unfold negMass at ih' ⊢
    rw [List.map_cons, List.sum_cons, ih', hw r (List.mem_cons_self _ _),
      he r (List.mem_cons_self _ _)]
    simp only [List.length_cons, Nat.cast_add, Nat.cast_one]
    ring

theorem meanCommQuality_const (recs : List (Interaction F)) (c : F) (hne : recs ≠ [])
    (hc : ∀ r ∈ recs, r.CommQuality = c) : meanCommQuality recs = c := by
  have hsum : (recs.map fun inter => inter.CommQuality).sum = (recs.length : F) * c := by
    clear hne
    induction recs with
    | nil => simp
    | cons r rs ih =>
      rw [List.map_cons, List.sum_cons, ih (fun x hx => hc x (List.mem_cons_of_mem _ hx)),
        hc r (List.mem_cons_self _ _)]
      simp only [List.length_cons, Nat.cast_add, Nat.cast_one]
      ring
  have hlen : recs.length ≠ 0 := fun h => hne (List.length_eq_zero.1 h)
  unfold meanCommQuality
  rw [if_neg hlen, hsum]
  have : (recs.length : F) ≠ 0 := Nat.cast_ne_zero.2 hlen
  field_simp

theorem reputation_pos_mono (cfg : Config ℝ) (c p q : ℝ) (hg0 : 0 ≤ cfg.Gamma)
    (hg1 : cfg.Gamma ≤ 1) (hc0 : 0 ≤ c) (hp : 0 ≤ p) (hpq : p ≤ q) :
    opinionToReputation cfg (computeLocalOpinion realMath p 0 c) ≤
      opinionToReputation cfg (computeLocalOpinion realMath q 0 c) := by
  rcases eq_or_lt_of_le (le_trans hp hpq) with hq0 | hq0
  · have hp0 : p = 0 := le_antisymm (by rw [hq0]; exact hpq) hp
    rw [hp0, ← hq0]
  · have hq' : 0 < q + 0 := by linarith
    have hq1 : q / q = 1 := div_self (ne_of_gt hq0)
    have htq : 0 ≤ Real.tanh (q / 30) := tanh_nonneg (by positivity)
    rw [computeLocalOpinion_pos realMath q 0 c hq']
    rcases eq_or_lt_of_le hp with hp0 | hp0
    · rw [← hp0, computeLocalOpinion_zero]
      simp only [opinionToReputation, realMath, add_zero, hq1, zero_div, mul_zero, zero_mul,
        sub_zero, mul_one]
      nlinarith [mul_nonneg hc0 htq, mul_nonneg hg0 hc0,
        mul_nonneg (sub_nonneg.2 hg1) (mul_nonneg hc0 htq)]
    · have hp' : 0 < p + 0 := by linarith
      have hp1 : p / p = 1 := div_self (ne_of_gt hp0)
      have hmono : Real.tanh (p / 30) ≤ Real.tanh (q / 30) :=
        tanh_strictMono.monotone (by linarith)
      rw [computeLocalOpinion_pos realMath p 0 c hp']
      simp only [opinionToReputation, realMath, add_zero, hq1, hp1, zero_div, mul_zero,
        zero_mul, sub_zero, mul_one]
      nlinarith [mul_le_mul_of_nonneg_left hmono hc0,
        mul_le_mul_of_nonneg_left (mul_le_mul_of_nonneg_left hmono hc0) (sub_nonneg.2 hg1)]

theorem reputation_neg_anti (cfg : Config ℝ) (c p q : ℝ) (hg0 : 0 ≤ cfg.Gamma)
    (hc0 : 0 ≤ c) (hp : 0 < p) (hpq : p ≤ q) :
    opinionToReputation cfg (computeLocalOpinion realMath 0 q c) ≤
      opinionToReputation cfg (computeLocalOpinion realMath 0 p c) := by
  have hq : 0 < q := lt_of_lt_of_le hp hpq
  have hp' : 0 < 0 + p := by linarith
  have hq' : 0 < 0 + q := by linarith
  have hmono : Real.tanh (p / 50) ≤ Real.tanh (q / 50) :=
    tanh_strictMono.monotone (by linarith)
  rw [computeLocalOpinion_pos realMath 0 p c hp', computeLocalOpinion_pos realMath 0 q c hq']
  simp only [opinionToReputation, realMath, zero_add, div_self (ne_of_gt hp),
    div_self (ne_of_gt hq), zero_div, mul_zero, zero_mul, sub_zero, mul_one]
  nlinarith [mul_le_mul_of_nonneg_left (mul_le_mul_of_nonneg_left hmono hc0) hg0]

theorem reputation_rounds_all_recent (M : MathFns F) (rm0 : ReputationManager F)
    (recs : Nat → Interaction F) (A myID : String) (neighbors : List String) (now : F)
    (pe ne : Int) (c : F) (k : Nat) (hk : 1 ≤ k)
    (hbase : ∀ r ∈ rm0.interactions, r.To ≠ A)
    (hrec : ∀ j, (recs j).To = A ∧ (recs j).PosEvents = pe ∧ (recs j).NegEvents = ne ∧
      (recs j).CommQuality = c)
    (hrecent : ∀ i, 1 ≤ i → i ≤ k → now - (recs i).Timestamp ≤ rm0.cfg.TRecent) :
    ComputeReputation M (logAfterRounds rm0 recs k) myID A neighbors now =
      opinionToReputation rm0.cfg (computeLocalOpinion M
        ((k : F) * (rm0.cfg.Zeta * rm0.cfg.Theta * (pe : F)))
        ((k : F) * (rm0.cfg.Zeta * rm0.cfg.Tau * (ne : F))) c) := by
  have hcfg : (logAfterRounds rm0 recs k).cfg = rm0.cfg := (foldl_AddInteraction _ rm0).2
  have hmem : ∀ r ∈ (List.range k).map (fun i => recs (i + 1)),
      recencyWeight rm0.cfg now r = rm0.cfg.Zeta ∧ r.PosEvents = pe ∧ r.NegEvents = ne ∧
        r.CommQuality = c := by
    intro r hr
    obtain ⟨i, hi, rfl⟩ := List.mem_map.1 hr
    have hi' : i < k := List.mem_range.1 hi
    refine ⟨?_, (hrec _).2.1, (hrec _).2.2.1, (hrec _).2.2.2⟩
    unfold recencyWeight
    rw [if_pos (hrecent (i + 1) (Nat.succ_le_succ (Nat.zero_le i)) hi')]
  have hne : (List.range k).map (fun i => recs (i + 1)) ≠ [] := by
    intro h
    have := congrArg List.length h
    simp at this
    omega
  rw [computeReputation_eq, hcfg,
    recordsTowards_logAfterRounds rm0 recs A k hbase (fun j => (hrec j).1),
    posMass_const rm0.cfg now _ rm0.cfg.Zeta pe (fun r hr => (hmem r hr).1)
      (fun r hr => (hmem r hr).2.1),
    negMass_const rm0.cfg now _ rm0.cfg.Zeta ne (fun r hr => (hmem r hr).1)
      (fun r hr => (hmem r hr).2.2.1),
    meanCommQuality_const _ c hne (fun r hr => (hmem r hr).2.2.2)]
  simp only [List.length_map, List.length_range]

theorem reputation_of_masses (M : MathFns F) (rm : ReputationManager F)
    (myID target : String) (neighbors : List String) (now p n c : F)
    (hp : posMass rm.cfg now (recordsTowards rm.interactions target) = p)
    (hn : negMass rm.cfg now (recordsTowards rm.interactions target) = n)
    (hc : meanCommQuality (recordsTowards rm.interactions target) = c) :
    ComputeReputation M rm myID target neighbors now =
      opinionToReputation rm.cfg (computeLocalOpinion M p n c) := by
  rw [computeReputation_eq, hp, hn, hc]

theorem steadyTimes_recent (i j : Nat) (hi : 1 ≤ i) (_hij : i ≤ j) (hj : j ≤ 5) :
    (steadyTimes j : ℝ) - steadyTimes i ≤ 5 := by
  have h1 : (1 : ℝ) ≤ (i : ℝ) := by exact_mod_cast hi
  have h2 : (j : ℝ) ≤ 5 := by exact_mod_cast hj
  unfold steadyTimes
  linarith

theorem reputation_no_records (M : MathFns F) (rm : ReputationManager F)
    (myID target : String) (neighbors : List String) (now : F)
    (h : recordsTowards rm.interactions target = []) :
    ComputeReputation M rm myID target neighbors now = rm.cfg.Gamma * 0.5 := by
  rw [computeReputation_eq, h]
  simp only [posMass, negMass, meanCommQuality, List.map_nil, List.sum_nil, List.length_nil,
    if_true, computeLocalOpinion_zero, opinionToReputation]
  norm_num

theorem tiedManager_scores :
    ComputeReputation realMath tiedManager "me" "a" [] 0 =
      ComputeReputation realMath tiedManager "me" "b" [] 0 ∧
    (1 : ℝ) / 4 < ComputeReputation realMath tiedManager "me" "a" [] 0 ∧
    ∀ c, c ≠ "a" → c ≠ "b" → ComputeReputation realMath tiedManager "me" c [] 0 = 1 / 4 := by
  have hval : ∀ c, c = "a" ∨ c = "b" → ComputeReputation realMath tiedManager "me" c [] 0 =
      opinionToReputation sampleConfig (computeLocalOpinion realMath (7 / 10) 0 0.9) := by
    intro c hc
    refine reputation_of_masses realMath _ _ _ _ _ _ _ _ ?_ ?_ ?_
    · rcases hc with rfl | rfl <;>
        simp [tiedManager, AddInteraction, NewReputationManager, recordsTowards, posMass,
          recencyWeight, sampleConfig]
    · rcases hc with rfl | rfl <;>
        simp [tiedManager, AddInteraction, NewReputationManager, recordsTowards, negMass]
    · rcases hc with rfl | rfl <;>
        simp [tiedManager, AddInteraction, NewReputationManager, recordsTowards, meanCommQuality]
  refine ⟨by rw [hval "a" (Or.inl rfl), hval "b" (Or.inr rfl)], ?_, ?_⟩
  · rw [hval "a" (Or.inl rfl), computeLocalOpinion_pos realMath _ _ _ (by norm_num)]
    have ht : 0 ≤ Real.tanh (7 / 10 / 30) := tanh_nonneg (by norm_num)
    simp only [opinionToReputation, realMath, sampleConfig]
    norm_num
    linarith
  · intro c hca hcb
    rw [reputation_no_records]
    · norm_num [tiedManager, AddInteraction, NewReputationManager, sampleConfig]
    · simp [tiedManager, AddInteraction, NewReputationManager, recordsTowards, hca.symm,
        hcb.symm]

theorem lcsLen_nil_right (A : List F) : lcsLen A [] = 0 := by
  cases A <;> simp [lcsLen]

theorem lcsLen_cons_cons (x y : F) (A B : List F) :
    lcsLen (x :: A) (y :: B) =
      if locMatch x y then lcsLen A B + 1 else max (lcsLen A (y :: B)) (lcsLen (x :: A) B) := by
  rw [lcsLen]

theorem locMatch_iff (x y : F) : locMatch x y = true ↔ |x - y| < 0.05 := by
  simp [locMatch]

theorem lcsLen_upper (A : List F) :
    ∀ (B : List F) (ps : List (F × F)), IsCommonMatching ps A B → ps.length ≤ lcsLen A B := by
  induction A with
  | nil =>
    intro B ps h
    have h1 := List.eq_nil_of_sublist_nil h.1
    rw [List.map_eq_nil_iff] at h1
    simp [h1]
  | cons x A ihA =>
    intro B
    induction B with
    | nil =>
      intro ps h
      have h2 := List.eq_nil_of_sublist_nil h.2.1
      rw [List.map_eq_nil_iff] at h2
      simp [h2]
    | cons y B ihB =>
      intro ps h
      rw [lcsLen_cons_cons]
      cases ps with
      | nil => simp
      | cons p ps =>
        obtain ⟨h1, h2, h3⟩ := h
        rw [List.map_cons] at h1 h2
        have h3' : ∀ q ∈ ps, |q.1 - q.2| < 0.05 := fun q hq => h3 q (List.mem_cons_of_mem _ hq)
        by_cases hm : locMatch x y = true
        · rw [if_pos hm]
          have := ihA B ps ⟨h1.of_cons_cons, h2.of_cons_cons, h3'⟩
          simp only [List.length_cons]
          omega
        · rw [if_neg hm]
          rcases List.sublist_cons_iff.1 h1 with h1a | ⟨r, hr, h1b⟩
          · have := ihA (y :: B) (p :: ps) ⟨by rw [List.map_cons]; exact h1a,
              by rw [List.map_cons]; exact h2, h3⟩
            exact le_trans this (le_max_left _ _)
          · rcases List.sublist_cons_iff.1 h2 with h2a | ⟨r2, hr2, h2b⟩
            · have := ihB (p :: ps) ⟨by rw [List.map_cons]; exact h1,
                by rw [List.map_cons]; exact h2a, h3⟩
              exact le_trans this (le_max_right _ _)
            · exfalso
              apply hm
              rw [locMatch_iff]
              have hp := h3 p (List.mem_cons_self _ _)
              have e1 : p.1 = x := (List.cons.inj hr).1
              have e2 : p.2 = y := (List.cons.inj hr2).1
              rw [e1, e2] at hp
              exact hp

theorem lcsLen_attained (A : List F) :
    ∀ B : List F, ∃ ps : List (F × F), IsCommonMatching ps A B ∧ ps.length = lcsLen A B := by
  induction A with
  | nil => intro B; exact ⟨[], ⟨by simp, by simp, by simp⟩, by simp [lcsLen]⟩
  | cons x A ihA =>
    intro B
    induction B with
    | nil => exact ⟨[], ⟨by simp, by simp, by simp⟩, by simp [lcsLen]⟩
    | cons y B ihB =>
      rw [lcsLen_cons_cons]
      by_cases hm : locMatch x y = true
      · rw [if_pos hm]
        obtain ⟨ps, ⟨h1, h2, h3⟩, hlen⟩ := ihA B
        refine ⟨(x, y) :: ps, ⟨?_, ?_, ?_⟩, by simp [hlen]⟩
        · rw [List.map_cons]; exact h1.cons₂ x
        · rw [List.map_cons]; exact h2.cons₂ y
        · intro p hp
          rcases List.mem_cons.1 hp with rfl | hp
          · exact (locMatch_iff x y).1 hm
          · exact h3 p hp
      · rw [if_neg hm]
        rcases le_total (lcsLen (x :: A) B) (lcsLen A (y :: B)) with hle | hle
        · obtain ⟨ps, ⟨h1, h2, h3⟩, hlen⟩ := ihA (y :: B)
          exact ⟨ps, ⟨h1.cons x, h2, h3⟩, by rw [hlen, max_eq_left hle]⟩
        · obtain ⟨ps, ⟨h1, h2, h3⟩, hlen⟩ := ihB
          exact ⟨ps, ⟨h1, h2.cons y, h3⟩, by rw [hlen, max_eq_right hle]⟩

theorem isCommonMatching_reverse (ps : List (F × F)) (A B : List F) :
    IsCommonMatching ps.reverse A.reverse B.reverse ↔ IsCommonMatching ps A B := by
  unfold IsCommonMatching
  rw [List.map_reverse, List.map_reverse, List.reverse_sublist, List.reverse_sublist]
  simp only [List.mem_reverse]

theorem lcsRowFrom_rowFrom (x : F) (A : List F) (ys acc : List F) :
    lcsRowFrom x ys (lcsLen A acc :: rowFrom A acc ys) (lcsLen (x :: A) acc) =
      rowFrom (x :: A) acc ys := by
  induction ys generalizing acc with
  | nil => simp [lcsRowFrom, rowFrom]
  | cons y ys ih =>
    simp only [rowFrom, lcsRowFrom]
    rw [← lcsLen_cons_cons, ih (y :: acc)]

theorem lcsRow_rowFrom (x : F) (A seq2 : List F) :
    lcsRow seq2 (0 :: rowFrom A [] seq2) x = 0 :: rowFrom (x :: A) [] seq2 := by
  have h := lcsRowFrom_rowFrom x A seq2 []
  rw [lcsLen_nil_right, lcsLen_nil_right] at h
  unfold lcsRow
  rw [h]

theorem foldl_lcsRow (seq1 seq2 A : List F) :
    seq1.foldl (lcsRow seq2) (0 :: rowFrom A [] seq2) =
      0 :: rowFrom (seq1.reverse ++ A) [] seq2 := by
  induction seq1 generalizing A with
  | nil => simp
  | cons x xs ih =>
    rw [List.foldl_cons, lcsRow_rowFrom, ih]
    simp

theorem rowFrom_nil (acc ys : List F) : rowFrom [] acc ys = List.replicate ys.length 0 := by
  induction ys generalizing acc with
  | nil => simp [rowFrom]
  | cons y ys ih => simp [rowFrom, lcsLen, ih, List.replicate_succ]

theorem getD_rowFrom (A ys acc : List F) :
    (lcsLen A acc :: rowFrom A acc ys).getD ys.length 0 = lcsLen A (ys.reverse ++ acc) := by
  induction ys generalizing acc with
  | nil => simp [rowFrom]
  | cons y ys ih =>
    simp only [rowFrom, List.length_cons, List.getD_cons_succ, List.reverse_cons,
      List.append_assoc, List.singleton_append]
    exact ih (y :: acc)

theorem computeLCS_eq_lcsLen (seq1 seq2 : List F) :
    computeLCS seq1 seq2 = lcsLen seq1.reverse seq2.reverse := by
  unfold computeLCS
  by_cases h : seq1.length = 0 ∨ seq2.length = 0
  · simp only [h, if_true]
    rcases h with h | h
    · rw [List.length_eq_zero.1 h]; simp [lcsLen]
    · rw [List.length_eq_zero.1 h]; simp [lcsLen_nil_right]
  · simp only [h, if_false]
    have h0 : List.replicate (seq2.length + 1) 0 = 0 :: rowFrom ([] : List F) [] seq2 := by
      rw [rowFrom_nil, List.replicate_succ]
    rw [h0, foldl_lcsRow, List.append_nil]
    have := getD_rowFrom seq1.reverse seq2 []
    rw [lcsLen_nil_right, List.append_nil] at this
    exact this

theorem computeLCS_isMax (A B : List F) :
    (∃ ps : List (F × F), IsCommonMatching ps A B ∧ ps.length = computeLCS A B) ∧
    ∀ ps : List (F × F), IsCommonMatching ps A B → ps.length ≤ computeLCS A B := by
  rw [computeLCS_eq_lcsLen]
  constructor
  · obtain ⟨ps, h, hlen⟩ := lcsLen_attained A.reverse B.reverse
    refine ⟨ps.reverse, ?_, by simp [hlen]⟩
    rw [← isCommonMatching_reverse, List.reverse_reverse]
    exact h
  · intro ps h
    have := lcsLen_upper A.reverse B.reverse ps.reverse ((isCommonMatching_reverse ps A B).2 h)
    simpa using this

theorem foldl_add_eq_sum {α : Type} (f : α → F) (l : List α) (s : F) :
    l.foldl (fun s v => s + f v) s = s + (l.map f).sum := by
  induction l generalizing s with
  | nil => simp
  | cons a l ih => rw [List.foldl_cons, ih, List.map_cons, List.sum_cons, add_assoc]

theorem computeSpeedDifference_eq (traj1 traj2 : List (Vector F)) :
    computeSpeedDifference traj1 traj2 =
      if max (meanSpeed traj1) (meanSpeed traj2) = 0 then 0
      else |meanSpeed traj1 - meanSpeed traj2| / max (meanSpeed traj1) (meanSpeed traj2) := by
  simp only [computeSpeedDifference, meanSpeed, foldl_add_eq_sum, zero_add]

theorem computeDirectionDifference_eq (M : MathFns F) (traj1 traj2 : List (Vector F)) :
    computeDirectionDifference M traj1 traj2 =
      if traj1.length = 0 ∨ traj2.length = 0 then 0
      else if directionPhi M traj1 traj2 ≤ M.Pi / 4 then M.Sin (directionPhi M traj1 traj2)
      else 0.5 + |M.Sin (directionPhi M traj1 traj2 + M.Pi / 4)| / 2 := by
  simp only [computeDirectionDifference, directionPhi, meanDirection, foldl_add_eq_sum, zero_add]

theorem computeLCS_eq_zero_of_no_match (A B : List F)
    (h : ∀ a ∈ A, ∀ b ∈ B, (0.05 : F) ≤ |a - b|) : computeLCS A B = 0 := by
  obtain ⟨ps, ⟨h1, h2, h3⟩, hlen⟩ := (computeLCS_isMax A B).1
  cases ps with
  | nil => simpa using hlen.symm
  | cons p ps =>
    exfalso
    have ha : p.1 ∈ A := h1.subset (by simp)
    have hb : p.2 ∈ B := h2.subset (by simp)
    exact absurd (h3 p (List.mem_cons_self _ _)) (not_lt.2 (h p.1 ha p.2 hb))

theorem computeLCS_self (A : List F) : computeLCS A A = A.length := by
  obtain ⟨⟨ps, ⟨h1, -, -⟩, hlen⟩, hmax⟩ := computeLCS_isMax A A
  apply le_antisymm
  · rw [← hlen]
    simpa using h1.length_le
  · have hfst : (A.map fun x => (x, x)).map Prod.fst = A := by
      rw [List.map_map]; exact List.map_id' A
    have hsnd : (A.map fun x => (x, x)).map Prod.snd = A := by
      rw [List.map_map]; exact List.map_id' A
    have := hmax (A.map fun x => (x, x)) ⟨by rw [hfst], by rw [hsnd], by
      intro p hp
      obtain ⟨x, -, rfl⟩ := List.mem_map.1 hp
      simp only [sub_self, abs_zero]
      norm_num⟩
    simpa using this

theorem foldl_freqStep (cfg : Config F) (fromID toID : String) (now : F)
    (log : List (Interaction F)) (acc : FreqAcc F) :
    cfg.Zeta * cfg.Theta * (log.foldl (freqStep cfg fromID toID now) acc).recentPos
        + cfg.Sigma * cfg.Theta * (log.foldl (freqStep cfg fromID toID now) acc).pastPos =
      cfg.Zeta * cfg.Theta * acc.recentPos + cfg.Sigma * cfg.Theta * acc.pastPos
        + posMass cfg now (recordsBetween log fromID toID) ∧
    cfg.Zeta * cfg.Tau * (log.foldl (freqStep cfg fromID toID now) acc).recentNeg
        + cfg.Sigma * cfg.Tau * (log.foldl (freqStep cfg fromID toID now) acc).pastNeg =
      cfg.Zeta * cfg.Tau * acc.recentNeg + cfg.Sigma * cfg.Tau * acc.pastNeg
        + negMass cfg now (recordsBetween log fromID toID) := by
  induction log generalizing acc with
  | nil => simp [recordsBetween, posMass, negMass]
  | cons r rs ih =>
    rw [List.foldl_cons]
    obtain ⟨ih1, ih2⟩ := ih (freqStep cfg fromID toID now acc r)
    rw [ih1, ih2]
    by_cases hft : r.From = fromID ∧ r.To = toID
    · have hne : ¬ (r.From ≠ fromID ∨ r.To ≠ toID) := by simp [hft.1, hft.2]
      have hfil : recordsBetween (r :: rs) fromID toID = r :: recordsBetween rs fromID toID := by
        simp [recordsBetween, List.filter_cons, hft.1, hft.2]
      rw [hfil]
      by_cases hrec : now - r.Timestamp ≤ cfg.TRecent
      · simp only [freqStep, hne, if_false, hrec, if_true, posMass, negMass, recencyWeight,
          List.map_cons, List.sum_cons]
        constructor <;> ring
      · simp only [freqStep, hne, if_false, hrec, posMass, negMass, recencyWeight,
          List.map_cons, List.sum_cons]
        constructor <;> ring
    · have hne : r.From ≠ fromID ∨ r.To ≠ toID := by
        by_contra hc
        simp only [not_or, not_not] at hc
        exact hft hc
      have hfil : recordsBetween (r :: rs) fromID toID = recordsBetween rs fromID toID := by
        simp only [recordsBetween, List.filter_cons]
        rw [if_neg (by simpa using hft)]
      rw [hfil]
      simp only [freqStep, hne, if_true]
      exact ⟨trivial, trivial⟩

theorem weightedMass_eq_sum (cfg : Config F) (now : F) (recs : List (Interaction F)) :
    weightedMass cfg now recs = (recs.map (recordMass cfg now)).sum := by
  induction recs with
  | nil => simp [weightedMass, posMass, negMass]
  | cons r rs ih =>
    simp only [weightedMass, posMass, negMass, List.map_cons, List.sum_cons] at ih ⊢
    rw [← ih]
    simp only [recordMass]
    ring

theorem countsStep_eq (cfg : Config F) (fromID : String) (now : F)
    (counts : List (String × F)) (r : Interaction F) :
    countsStep cfg fromID now counts r =
      if r.From = fromID then mapAdd counts r.To (recordMass cfg now r) else counts := by
  unfold countsStep recordMass recencyWeight
  by_cases h : r.From = fromID
  · by_cases hrec : now - r.Timestamp ≤ cfg.TRecent <;> simp [h, hrec]
  · simp [h]

theorem mapAdd_spec (counts : List (String × F)) (k : String) (v : F) (m : String → F)
    (hnd : (counts.map Prod.fst).Nodup) (hval : ∀ kc ∈ counts, kc.2 = m kc.1)
    (hzero : k ∉ counts.map Prod.fst → m k = 0) :
    ((mapAdd counts k v).map Prod.fst).Nodup ∧
    (∀ k2, k2 ∈ (mapAdd counts k v).map Prod.fst ↔ k2 = k ∨ k2 ∈ counts.map Prod.fst) ∧
    ∀ kc ∈ mapAdd counts k v, kc.2 = m kc.1 + if kc.1 = k then v else 0 := by
  induction counts with
  | nil =>
    refine ⟨by simp [mapAdd], by simp [mapAdd], ?_⟩
    intro kc hkc
    simp only [mapAdd, List.mem_singleton] at hkc
    rw [hkc]
    simp [hzero (by simp)]
  | cons e rest ih =>
    obtain ⟨k0, c0⟩ := e
    rw [List.map_cons, List.nodup_cons] at hnd
    have hc0 : c0 = m k0 := hval (k0, c0) (List.mem_cons_self _ _)
    have hrest : ∀ kc ∈ rest, kc.2 = m kc.1 := fun kc h => hval kc (List.mem_cons_of_mem _ h)
    by_cases hk : k0 = k
    · have hmap : mapAdd ((k0, c0) :: rest) k v = (k0, c0 + v) :: rest := by
        simp [mapAdd, hk]
      rw [hmap]
      refine ⟨by simpa using hnd, ?_, ?_⟩
      · intro k2
        simp only [List.map_cons, List.mem_cons]
        rw [hk]
        tauto
      · intro kc hkc
        rcases List.mem_cons.1 hkc with rfl | hkc
        · simp [hk, hc0]
        · have hne : kc.1 ≠ k := by
            intro h
            apply hnd.1
            rw [hk, ← h]
            exact List.mem_map.2 ⟨kc, hkc, rfl⟩
          simp [hne, hrest kc hkc]
    · have hmap : mapAdd ((k0, c0) :: rest) k v = (k0, c0) :: mapAdd rest k v := by
        simp [mapAdd, hk]
      rw [hmap]
      obtain ⟨ih1, ih2, ih3⟩ := ih hnd.2 hrest (fun h => hzero (by
        simp only [List.map_cons, List.mem_cons, not_or]
        exact ⟨fun h' => hk h'.symm, h⟩))
      refine ⟨?_, ?_, ?_⟩
      · rw [List.map_cons, List.nodup_cons]
        refine ⟨?_, ih1⟩
        rw [ih2]
        rintro (h | h)
        · exact hk h
        · exact hnd.1 h
      · intro k2
        simp only [List.map_cons, List.mem_cons]
        rw [ih2]
        tauto
      · intro kc hkc
        rcases List.mem_cons.1 hkc with rfl | hkc
        · simp [hk, hc0]
        · exact ih3 kc hkc

theorem recordsBetween_append {G : Type} (log : List (Interaction G)) (r : Interaction G)
    (fromID toID : String) :
    recordsBetween (log ++ [r]) fromID toID =
      recordsBetween log fromID toID ++ if r.From = fromID ∧ r.To = toID then [r] else [] := by
  unfold recordsBetween
  rw [List.filter_append]
  by_cases h : r.From = fromID ∧ r.To = toID
  · simp [List.filter_cons, h.1, h.2]
  · rw [if_neg h]
    simp only [List.filter_cons, List.filter_nil]
    rw [if_neg (by simpa using h)]

theorem foldl_countsStep (cfg : Config F) (fromID : String) (now : F)
    (log : List (Interaction F)) :
    ((log.foldl (countsStep cfg fromID now) []).map Prod.fst).Nodup ∧
    (∀ k, k ∈ (log.foldl (countsStep cfg fromID now) []).map Prod.fst ↔
      k ∈ (log.filter fun inter => inter.From = fromID).map fun inter => inter.To) ∧
    ∀ kc ∈ log.foldl (countsStep cfg fromID now) [],
      kc.2 = weightedMass cfg now (recordsBetween log fromID kc.1) := by
  induction log using List.reverseRecOn with
  | nil => simp
  | append_singleton log r ih =>
    obtain ⟨ih1, ih2, ih3⟩ := ih
    rw [List.foldl_append, List.foldl_cons, List.foldl_nil, countsStep_eq]
    by_cases h : r.From = fromID
    · rw [if_pos h]
      have hzero : r.To ∉ (log.foldl (countsStep cfg fromID now) []).map Prod.fst →
          weightedMass cfg now (recordsBetween log fromID r.To) = 0 := by
        intro hnot
        rw [ih2] at hnot
        have : recordsBetween log fromID r.To = [] := by
          unfold recordsBetween
          rw [List.filter_eq_nil_iff]
          intro x hx hcond
          simp only [decide_eq_true_eq] at hcond
          apply hnot
          exact List.mem_map.2 ⟨x, List.mem_filter.2 ⟨hx, by simpa using hcond.1⟩, hcond.2⟩
        rw [this]
        simp [weightedMass, posMass, negMass]
      obtain ⟨m1, m2, m3⟩ := mapAdd_spec (log.foldl (countsStep cfg fromID now) []) r.To
        (recordMass cfg now r) (fun k => weightedMass cfg now (recordsBetween log fromID k))
        ih1 ih3 hzero
      refine ⟨m1, ?_, ?_⟩
      · intro k
        rw [m2, ih2]
        simp only [List.filter_append, List.map_append, List.mem_append, List.filter_cons,
          List.filter_nil, h, decide_True, if_true, List.map_cons, List.map_nil,
          List.mem_singleton]
        tauto
      · intro kc hkc
        rw [m3 kc hkc, recordsBetween_append, weightedMass_eq_sum, weightedMass_eq_sum]
        by_cases hk : kc.1 = r.To
        · simp [hk, h]
        · have hk' : ¬ r.To = kc.1 := fun h' => hk h'.symm
          simp [hk, hk']
    · rw [if_neg h]
      refine ⟨ih1, ?_, ?_⟩
      · intro k
        rw [ih2]
        simp only [List.filter_append, List.map_append, List.mem_append, List.filter_cons,
          List.filter_nil, h, decide_False, List.map_nil, List.not_mem_nil, or_false]
        simp
      · intro kc hkc
        rw [ih3 kc hkc, recordsBetween_append]
        simp [h]

theorem counts_summary (cfg : Config F) (fromID : String) (now : F)
    (log : List (Interaction F)) :
    (log.foldl (countsStep cfg fromID now) []).length = (recipientsOf log fromID).length ∧
    (log.foldl (countsStep cfg fromID now) []).foldl (fun s kc => s + kc.2) 0 =
      ((recipientsOf log fromID).map fun r =>
        weightedMass cfg now (recordsBetween log fromID r)).sum := by
  obtain ⟨h1, h2, h3⟩ := foldl_countsStep cfg fromID now log
  have hperm : ((log.foldl (countsStep cfg fromID now) []).map Prod.fst).Perm
      (recipientsOf log fromID) := by
    unfold recipientsOf
    rw [List.perm_ext_iff_of_nodup h1 (List.nodup_dedup _)]
    intro k
    rw [h2, List.mem_dedup]
  constructor
  · have := hperm.length_eq
    simpa using this
  · rw [foldl_add_eq_sum, zero_add]
    have hmap : (log.foldl (countsStep cfg fromID now) []).map (fun kc => kc.2) =
        ((log.foldl (countsStep cfg fromID now) []).map Prod.fst).map
          (fun r => weightedMass cfg now (recordsBetween log fromID r)) := by
      rw [List.map_map]
      apply List.map_congr_left
      intro kc hkc
      exact h3 kc hkc
    rw [hmap]
    exact (hperm.map _).sum_eq

theorem recordsBetween_eq_nil_of_no_recipients {G : Type} (log : List (Interaction G))
    (fromID toID : String) (h : recipientsOf log fromID = []) :
    recordsBetween log fromID toID = [] := by
  unfold recordsBetween
  rw [List.filter_eq_nil_iff]
  intro x hx hcond
  simp only [decide_eq_true_eq] at hcond
  have hmem : x.To ∈ recipientsOf log fromID := by
    unfold recipientsOf
    rw [List.mem_dedup]
    exact List.mem_map.2 ⟨x, List.mem_filter.2 ⟨hx, by simpa using hcond.1⟩, rfl⟩
  rw [h] at hmem
  exact absurd hmem (List.not_mem_nil _)

theorem computeInteractionFrequency_eq (rm : Agent F) (fromID toID : String) (now : F) :
    computeInteractionFrequency rm fromID toID now =
      if recipientsOf rm.interactions fromID = [] then 0
      else weightedMass rm.cfg now (recordsBetween rm.interactions fromID toID) /
        averageMass rm.cfg now rm.interactions fromID := by
  obtain ⟨f1, f2⟩ := foldl_freqStep rm.cfg fromID toID now rm.interactions ⟨0, 0, 0, 0⟩
  obtain ⟨c1, c2⟩ := counts_summary rm.cfg fromID now rm.interactions
  simp only [mul_zero, add_zero, zero_add] at f1 f2
  unfold computeInteractionFrequency
  simp only [f1, f2, c1, c2]
  by_cases hrec : recipientsOf rm.interactions fromID = []
  · rw [if_pos hrec, recordsBetween_eq_nil_of_no_recipients _ _ _ hrec, hrec]
    simp [posMass, negMass]
  · rw [if_neg hrec]
    have hlen : (recipientsOf rm.interactions fromID).length > 0 := List.length_pos.2 hrec
    simp only [hlen, if_true]
    unfold weightedMass averageMass weightedMass
    split_ifs with h0
    · rw [h0, div_zero]
    · rfl

theorem recipientsOf_map_scaleEvents {G : Type} (k : Nat) (log : List (Interaction G))
    (fromID : String) :
    recipientsOf (log.map (scaleEvents k)) fromID = recipientsOf log fromID := by
  unfold recipientsOf
  rw [List.filter_map, List.map_map]
  rfl

theorem recordsBetween_map_scaleEvents {G : Type} (k : Nat) (log : List (Interaction G))
    (fromID toID : String) :
    recordsBetween (log.map (scaleEvents k)) fromID toID =
      (recordsBetween log fromID toID).map (scaleEvents k) := by
  unfold recordsBetween
  rw [List.filter_map]
  rfl

theorem weightedMass_map_scaleEvents (cfg : Config F) (now : F) (k : Nat)
    (recs : List (Interaction F)) :
    weightedMass cfg now (recs.map (scaleEvents k)) = (k : F) * weightedMass cfg now recs := by
  rw [weightedMass_eq_sum, weightedMass_eq_sum, List.map_map, ← List.sum_map_mul_left]
  apply congrArg
  apply List.map_congr_left
  intro r _
  simp only [Function.comp, recordMass, recencyWeight, scaleEvents, Int.cast_mul,
    Int.cast_natCast]
  ring

theorem averageMass_map_scaleEvents (cfg : Config F) (now : F) (k : Nat)
    (log : List (Interaction F)) (fromID : String) :
    averageMass cfg now (log.map (scaleEvents k)) fromID =
      (k : F) * averageMass cfg now log fromID := by
  unfold averageMass
  rw [recipientsOf_map_scaleEvents]
  simp only [recordsBetween_map_scaleEvents, weightedMass_map_scaleEvents]
  rw [List.sum_map_mul_left, mul_div_assoc]

theorem foldl_recStep (M : MathFns F) (peers : String → Option (Agent F)) (target : String)
    (now : F) (neighbors : List String) (acc : RecAcc F) :
    neighbors.foldl (recStep M peers target now) acc =
      { bSum := acc.bSum + ((registeredNeighbors peers neighbors).map fun x =>
          neighborWeight M target now x * (computeDirectOpinion M x.2 target now).Belief).sum
        dSum := acc.dSum + ((registeredNeighbors peers neighbors).map fun x =>
          neighborWeight M target now x * (computeDirectOpinion M x.2 target now).Disbelief).sum
        uSum := acc.uSum + ((registeredNeighbors peers neighbors).map fun x =>
          neighborWeight M target now x * (computeDirectOpinion M x.2 target now).Uncertainty).sum
        weightSum := acc.weightSum +
          ((registeredNeighbors peers neighbors).map (neighborWeight M target now)).sum } := by
  induction neighbors generalizing acc with
  | nil => simp [registeredNeighbors]
  | cons id ids ih =>
    rw [List.foldl_cons, ih]
    cases hp : peers id with
    | none => simp [recStep, registeredNeighbors, hp]
    | some peer =>
      simp [recStep, registeredNeighbors, hp, neighborWeight, computeWeight, add_assoc]

theorem tanh_lt_one (x : ℝ) : Real.tanh x < 1 := by
  rw [Real.tanh_eq_sinh_div_cosh, div_lt_one (Real.cosh_pos x)]
  exact Real.sinh_lt_cosh x

theorem directionPhi_mem_of_le_two_pi (trajA trajB : List (Vector ℝ))
    (h : |meanDirection trajA - meanDirection trajB| ≤ 2 * Real.pi) :
    0 ≤ directionPhi realMath trajA trajB ∧ directionPhi realMath trajA trajB ≤ Real.pi := by
  unfold directionPhi
  simp only [realMath]
  split_ifs with hgt
  · constructor <;> linarith
  · exact ⟨abs_nonneg _, not_lt.1 hgt⟩

theorem uncertainty_bounds (p n c : ℝ) (hp : 0 ≤ p) (hn : 0 ≤ n) (hc0 : 0 ≤ c) :
    1 - c ≤ (computeLocalOpinion realMath p n c).Uncertainty ∧
    (computeLocalOpinion realMath p n c).Uncertainty ≤ 1 := by
  rcases eq_or_lt_of_le (add_nonneg hp hn) with h0 | hpos
  · have hp0 : p = 0 := by linarith
    have hn0 : n = 0 := by linarith
    rw [hp0, hn0, computeLocalOpinion_zero]
    constructor <;> simp [hc0]
  · rw [computeLocalOpinion_pos realMath p n c hpos]
    simp only [realMath]
    have hsum : p / (p + n) + n / (p + n) = 1 := by
      rw [← add_div, div_self (ne_of_gt hpos)]
    have hfp : 0 ≤ p / (p + n) := div_nonneg hp (le_of_lt hpos)
    have hfn : 0 ≤ n / (p + n) := div_nonneg hn (le_of_lt hpos)
    have htp0 : 0 ≤ Real.tanh (p / 30) := tanh_nonneg (by positivity)
    have htn0 : 0 ≤ Real.tanh (n / 50) := tanh_nonneg (by positivity)
    have htp1 : Real.tanh (p / 30) ≤ 1 := le_of_lt (tanh_lt_one _)
    have htn1 : Real.tanh (n / 50) ≤ 1 := le_of_lt (tanh_lt_one _)
    have hb0 : 0 ≤ c * (p / (p + n)) * Real.tanh (p / 30) :=
      mul_nonneg (mul_nonneg hc0 hfp) htp0
    have hd0 : 0 ≤ c * (n / (p + n)) * Real.tanh (n / 50) :=
      mul_nonneg (mul_nonneg hc0 hfn) htn0
    have hb1 : c * (p / (p + n)) * Real.tanh (p / 30) ≤ c * (p / (p + n)) :=
      mul_le_of_le_one_right (mul_nonneg hc0 hfp) htp1
    have hd1 : c * (n / (p + n)) * Real.tanh (n / 50) ≤ c * (n / (p + n)) :=
      mul_le_of_le_one_right (mul_nonneg hc0 hfn) htn1
    have hcs : c * (p / (p + n)) + c * (n / (p + n)) = c := by
      rw [← mul_add, hsum, mul_one]
    constructor <;> linarith

theorem edgeTrajectories_first {G : Type} (pre post : List (Interaction G)) (r : Interaction G)
    (neighborID target : String)
    (hpre : ∀ q ∈ pre, ¬ (q.From = neighborID ∧ q.To = target))
    (hfrom : r.From = neighborID) (hto : r.To = target) :
    edgeTrajectories (pre ++ r :: post) neighborID target = (r.TrajUser, r.TrajProvider) := by
  unfold edgeTrajectories
  have hnone : pre.find? (fun inter => decide (inter.From = neighborID ∧ inter.To = target)) =
      none := by
    rw [List.find?_eq_none]
    intro q hq
    simpa using hpre q hq
  have hsome : (r :: post).find? (fun inter => decide (inter.From = neighborID ∧ inter.To = target)) =
      some r := by
    rw [List.find?_cons_of_pos]
    simp [hfrom, hto]
  rw [List.find?_append, hnone, hsome]
  rfl

theorem edgeTrajectories_none {G : Type} (log : List (Interaction G)) (neighborID target : String)
    (h : ∀ q ∈ log, ¬ (q.From = neighborID ∧ q.To = target)) :
    edgeTrajectories log neighborID target = ([], []) := by
  unfold edgeTrajectories
  have hnone : log.find? (fun inter => decide (inter.From = neighborID ∧ inter.To = target)) =
      none := by
    rw [List.find?_eq_none]
    intro q hq
    simpa using h q hq
  rw [hnone]

theorem computeInteractionFrequency_no_edge (rm : Agent F) (fromID toID : String) (now : F)
    (h : ∀ q ∈ rm.interactions, ¬ (q.From = fromID ∧ q.To = toID)) :
    computeInteractionFrequency rm fromID toID now = 0 := by
  have hnil : recordsBetween rm.interactions fromID toID = [] := by
    unfold recordsBetween
    rw [List.filter_eq_nil_iff]
    intro q hq
    simpa using h q hq
  rw [computeInteractionFrequency_eq, hnil]
  simp [weightedMass, posMass, negMass]

theorem sum_map_bounds {α : Type} (f : α → F) (l : List α) (a b : F)
    (h : ∀ x ∈ l, a ≤ f x ∧ f x ≤ b) :
    (l.length : F) * a ≤ (l.map f).sum ∧ (l.map f).sum ≤ (l.length : F) * b := by
  induction l with
  | nil => simp
  | cons x xs ih =>
    obtain ⟨ih1, ih2⟩ := ih (fun y hy => h y (List.mem_cons_of_mem _ hy))
    obtain ⟨hx1, hx2⟩ := h x (List.mem_cons_self _ _)
    simp only [List.map_cons, List.sum_cons, List.length_cons, Nat.cast_add, Nat.cast_one]
    constructor <;> linarith

theorem mean_bounds {α : Type} (f : α → F) (l : List α) (a b : F) (hne : l ≠ [])
    (h : ∀ x ∈ l, a ≤ f x ∧ f x ≤ b) :
    a ≤ (l.map f).sum / (l.length : F) ∧ (l.map f).sum / (l.length : F) ≤ b := by
  obtain ⟨h1, h2⟩ := sum_map_bounds f l a b h
  have hpos : (0 : F) < (l.length : F) := Nat.cast_pos.2 (List.length_pos.2 hne)
  constructor
  · rw [le_div_iff₀ hpos]; linarith
  · rw [div_le_iff₀ hpos]; linarith

theorem meanSpeed_nonneg (traj : List (Vector F)) (h : ∀ v ∈ traj, 0 ≤ v.Speed) :
    0 ≤ meanSpeed traj := by
  unfold meanSpeed
  apply div_nonneg
  · exact List.sum_nonneg (by
      intro x hx
      obtain ⟨v, hv, rfl⟩ := List.mem_map.1 hx
      exact h v hv)
  · exact Nat.cast_nonneg _

theorem computeSpeedDifference_mem (trajA trajB : List (Vector F))
    (hA : ∀ v ∈ trajA, 0 ≤ v.Speed) (hB : ∀ v ∈ trajB, 0 ≤ v.Speed) :
    0 ≤ computeSpeedDifference trajA trajB ∧ computeSpeedDifference trajA trajB ≤ 1 := by
  have ha := meanSpeed_nonneg trajA hA
  have hb := meanSpeed_nonneg trajB hB
  rw [computeSpeedDifference_eq]
  split_ifs with h0
  · exact ⟨le_refl _, zero_le_one⟩
  · have hmax : 0 < max (meanSpeed trajA) (meanSpeed trajB) :=
      lt_of_le_of_ne (le_trans ha (le_max_left _ _)) (Ne.symm h0)
    constructor
    · exact div_nonneg (abs_nonneg _) (le_of_lt hmax)
    · rw [div_le_one hmax, abs_le]
      constructor
      · have := le_max_right (meanSpeed trajA) (meanSpeed trajB)
        linarith
      · have := le_max_left (meanSpeed trajA) (meanSpeed trajB)
        linarith

theorem computeLCS_le_length_left (A B : List F) : computeLCS A B ≤ A.length := by
  obtain ⟨ps, ⟨h1, -, -⟩, hlen⟩ := (computeLCS_isMax A B).1
  rw [← hlen]
  simpa using h1.length_le

theorem computeLocationDifference_mem (trajA trajB : List (Vector F)) :
    0 ≤ computeLocationDifference trajA trajB ∧ computeLocationDifference trajA trajB ≤ 1 := by
  have hlcs : ((computeLCS (trajA.map fun v => v.Location) (trajB.map fun v => v.Location) :
      Nat) : F) ≤ (trajA.length : F) := by
    have := computeLCS_le_length_left (trajA.map fun v => v.Location)
      (trajB.map fun v => v.Location)
    rw [List.length_map] at this
    exact_mod_cast this
  have hle : ((computeLCS (trajA.map fun v => v.Location) (trajB.map fun v => v.Location) :
      Nat) : F) ≤ max (trajA.length : F) (trajB.length : F) := le_trans hlcs (le_max_left _ _)
  have hmax0 : (0 : F) ≤ max (trajA.length : F) (trajB.length : F) :=
    le_trans (Nat.cast_nonneg _) (le_max_left _ _)
  have hl0 : (0 : F) ≤ ((computeLCS (trajA.map fun v => v.Location)
      (trajB.map fun v => v.Location) : Nat) : F) := Nat.cast_nonneg _
  simp only [computeLocationDifference, List.length_map]
  split_ifs with h0
  · exact ⟨le_refl _, zero_le_one⟩
  · have hpos : 0 < max (trajA.length : F) (trajB.length : F) :=
      lt_of_le_of_ne hmax0 (Ne.symm h0)
    constructor
    · exact div_nonneg (by linarith) hmax0
    · rw [div_le_one hpos]
      linarith

theorem meanDirection_mem (traj : List (Vector ℝ)) (hne : traj ≠ [])
    (h : ∀ v ∈ traj, -Real.pi ≤ v.Direction ∧ v.Direction ≤ Real.pi) :
    -Real.pi ≤ meanDirection traj ∧ meanDirection traj ≤ Real.pi :=
  mean_bounds (fun v => v.Direction) traj (-Real.pi) Real.pi hne h

theorem computeDirectionDifference_mem (trajA trajB : List (Vector ℝ))
    (hA : ∀ v ∈ trajA, -Real.pi ≤ v.Direction ∧ v.Direction ≤ Real.pi)
    (hB : ∀ v ∈ trajB, -Real.pi ≤ v.Direction ∧ v.Direction ≤ Real.pi) :
    0 ≤ computeDirectionDifference realMath trajA trajB ∧
      computeDirectionDifference realMath trajA trajB ≤ 1 := by
  rw [computeDirectionDifference_eq]
  by_cases hemp : trajA.length = 0 ∨ trajB.length = 0
  · rw [if_pos hemp]
    exact ⟨le_refl _, zero_le_one⟩
  · rw [if_neg hemp]
    have hneA : trajA ≠ [] := fun h => hemp (Or.inl (by rw [h]; rfl))
    have hneB : trajB ≠ [] := fun h => hemp (Or.inr (by rw [h]; rfl))
    obtain ⟨a1, a2⟩ := meanDirection_mem trajA hneA hA
    obtain ⟨b1, b2⟩ := meanDirection_mem trajB hneB hB
    have hdiff : |meanDirection trajA - meanDirection trajB| ≤ 2 * Real.pi := by
      rw [abs_le]
      constructor <;> linarith
    obtain ⟨p0, p1⟩ := directionPhi_mem_of_le_two_pi trajA trajB hdiff
    simp only [realMath] at *
    split_ifs with h4
    · exact ⟨Real.sin_nonneg_of_nonneg_of_le_pi p0 p1, Real.sin_le_one _⟩
    · have habs0 := abs_nonneg (Real.sin (directionPhi ⟨Real.tanh, Real.sin, Real.pi⟩ trajA trajB
        + Real.pi / 4))
      have habs1 := Real.abs_sin_le_one (directionPhi ⟨Real.tanh, Real.sin, Real.pi⟩ trajA trajB
        + Real.pi / 4)
      constructor
      · norm_num
        linarith
      · norm_num
        linarith

theorem share_mono (a b m : ℝ) (_ha : 0 ≤ a) (hab : a ≤ b) (hm : 0 ≤ m) (hpos : 0 < a + m) :
    a / (a + m) ≤ b / (b + m) ∧ m / (b + m) ≤ m / (a + m) := by
  have hpos' : 0 < b + m := by linarith
  constructor
  · rw [div_le_div_iff₀ hpos hpos']
    nlinarith [mul_le_mul_of_nonneg_right hab hm]
  · exact div_le_div_of_nonneg_left hm hpos (by linarith)

theorem scaled_share_mono (a b m k : ℝ) (ha : 0 ≤ a) (hab : a ≤ b) (hm : 0 ≤ m)
    (hpos : 0 < a + m) (hk : 0 < k) :
    a / (a + m) * Real.tanh (a / k) ≤ b / (b + m) * Real.tanh (b / k) := by
  have hpos' : 0 < b + m := by linarith
  have h1 := (share_mono a b m ha hab hm hpos).1
  have h2 : Real.tanh (a / k) ≤ Real.tanh (b / k) :=
    tanh_strictMono.monotone (div_le_div_of_nonneg_right hab (le_of_lt hk))
  have h3 : 0 ≤ Real.tanh (a / k) := tanh_nonneg (div_nonneg ha (le_of_lt hk))
  have h4 : 0 ≤ b / (b + m) := div_nonneg (le_trans ha hab) (le_of_lt hpos')
  exact mul_le_mul h1 h2 h3 h4

theorem reputation_pos_eq (cfg : Config ℝ) (c p n : ℝ) (hpos : 0 < p + n) :
    opinionToReputation cfg (computeLocalOpinion realMath p n c) =
      cfg.Gamma + (1 - cfg.Gamma) * (c * (p / (p + n) * Real.tanh (p / 30)))
        - cfg.Gamma * (c * (n / (p + n) * Real.tanh (n / 50))) := by
  rw [computeLocalOpinion_pos realMath p n c hpos]
  simp only [opinionToReputation, realMath]
  ring

theorem reputation_mono_in_pos (cfg : Config ℝ) (c p q n : ℝ) (hg0 : 0 ≤ cfg.Gamma)
    (hg1 : cfg.Gamma ≤ 1) (hc0 : 0 ≤ c) (hp : 0 ≤ p) (hn : 0 ≤ n) (hpos : 0 < p + n)
    (hpq : p ≤ q) :
    opinionToReputation cfg (computeLocalOpinion realMath p n c) ≤
      opinionToReputation cfg (computeLocalOpinion realMath q n c) := by
  rw [reputation_pos_eq cfg c p n hpos, reputation_pos_eq cfg c q n (by linarith)]
  have hb := scaled_share_mono p q n 30 hp hpq hn hpos (by norm_num)
  have hd : n / (q + n) * Real.tanh (n / 50) ≤ n / (p + n) * Real.tanh (n / 50) :=
    mul_le_mul_of_nonneg_right (share_mono p q n hp hpq hn hpos).2
      (tanh_nonneg (by positivity))
  have hb' := mul_le_mul_of_nonneg_left (mul_le_mul_of_nonneg_left hb hc0) (sub_nonneg.2 hg1)
  have hd' := mul_le_mul_of_nonneg_left (mul_le_mul_of_nonneg_left hd hc0) hg0
  linarith

theorem reputation_anti_in_neg (cfg : Config ℝ) (c p n m : ℝ) (hg0 : 0 ≤ cfg.Gamma)
    (hg1 : cfg.Gamma ≤ 1) (hc0 : 0 ≤ c) (hp : 0 ≤ p) (hn : 0 ≤ n) (hpos : 0 < p + n)
    (hnm : n ≤ m) :
    opinionToReputation cfg (computeLocalOpinion realMath p m c) ≤
      opinionToReputation cfg (computeLocalOpinion realMath p n c) := by
  rw [reputation_pos_eq cfg c p n hpos, reputation_pos_eq cfg c p m (by linarith)]
  have hpos2 : 0 < n + p := by linarith
  have hd := scaled_share_mono n m p 50 hn hnm hp hpos2 (by norm_num)
  have hb : p / (m + p) * Real.tanh (p / 30) ≤ p / (n + p) * Real.tanh (p / 30) :=
    mul_le_mul_of_nonneg_right (share_mono n m p hn hnm hp hpos2).2
      (tanh_nonneg (by positivity))
  rw [add_comm n p, add_comm m p] at hd hb
  have hb' := mul_le_mul_of_nonneg_left (mul_le_mul_of_nonneg_left hb hc0) (sub_nonneg.2 hg1)
  have hd' := mul_le_mul_of_nonneg_left (mul_le_mul_of_nonneg_left hd hc0) hg0
  linarith

theorem reputation_mem_unit (cfg : Config ℝ) (c p n : ℝ) (hg0 : 0 ≤ cfg.Gamma)
    (hg1 : cfg.Gamma ≤ 1) (hc0 : 0 ≤ c) (hc1 : c ≤ 1) (hp : 0 ≤ p) (hn : 0 ≤ n)
    (hpos : 0 < p + n) :
    0 ≤ opinionToReputation cfg (computeLocalOpinion realMath p n c) ∧
      opinionToReputation cfg (computeLocalOpinion realMath p n c) ≤ 1 := by
  obtain ⟨hu0, -⟩ := uncertainty_bounds p n c hp hn hc0
  rw [computeLocalOpinion_pos realMath p n c hpos] at hu0 ⊢
  simp only [opinionToReputation, realMath] at hu0 ⊢
  have hb0 : 0 ≤ c * (p / (p + n)) * Real.tanh (p / 30) :=
    mul_nonneg (mul_nonneg hc0 (div_nonneg hp (le_of_lt hpos))) (tanh_nonneg (by positivity))
  have hd0 : 0 ≤ c * (n / (p + n)) * Real.tanh (n / 50) :=
    mul_nonneg (mul_nonneg hc0 (div_nonneg hn (le_of_lt hpos))) (tanh_nonneg (by positivity))
  have hu : 0 ≤ 1 - c * (p / (p + n)) * Real.tanh (p / 30)
      - c * (n / (p + n)) * Real.tanh (n / 50) := by linarith
  constructor
  · have := mul_nonneg hg0 hu
    linarith
  · have := mul_le_mul_of_nonneg_right hg1 hu
    linarith

/-! ## Claims -/

/-- C1: computeDirectOpinion(target, now) equals computeLocalOpinion(P, N, q), where
over the log records whose recipient is the target P is the sum of
w * Theta * PosEvents, N the sum of w * Tau * NegEvents (w = Zeta when
now - Timestamp <= TRecent, Sigma otherwise) and q the mean CommQuality (0.5
when there is no such record). For the log of the two records
(1 -> 2, pos 1, neg 0, q 0.9, t0) and (1 -> 2, pos 0, neg 2, q 0.7, t0 + 1),
queried at t0 + 2 with 2 <= TRecent: P = Zeta * Theta, N = 2 * Zeta * Tau,
q = 0.8. -/
theorem C1_directOpinion_is_localOpinion_of_weighted_masses (M : MathFns F) :
    (∀ (rm : Agent F) (target : String) (now : F),
      computeDirectOpinion M rm target now =
        computeLocalOpinion M
          (posMass rm.cfg now (recordsTowards rm.interactions target))
          (negMass rm.cfg now (recordsTowards rm.interactions target))
          (meanCommQuality (recordsTowards rm.interactions target))) ∧
    (∀ (cfg : Config F) (t0 : F) (u1 p1 u2 p2 : List (Vector F)),
      2 ≤ cfg.TRecent →
      posMass cfg (t0 + 2) (recordsTowards
        [⟨"1", "2", 1, 0, t0, 0.9, u1, p1⟩, ⟨"1", "2", 0, 2, t0 + 1, 0.7, u2, p2⟩] "2") =
          cfg.Zeta * cfg.Theta ∧
      negMass cfg (t0 + 2) (recordsTowards
        [⟨"1", "2", 1, 0, t0, 0.9, u1, p1⟩, ⟨"1", "2", 0, 2, t0 + 1, 0.7, u2, p2⟩] "2") =
          2 * cfg.Zeta * cfg.Tau ∧
      meanCommQuality (recordsTowards
        [(⟨"1", "2", 1, 0, t0, 0.9, u1, p1⟩ : Interaction F),
          ⟨"1", "2", 0, 2, t0 + 1, 0.7, u2, p2⟩] "2") = 0.8 ∧
      computeDirectOpinion M
        ⟨cfg, [⟨"1", "2", 1, 0, t0, 0.9, u1, p1⟩, ⟨"1", "2", 0, 2, t0 + 1, 0.7, u2, p2⟩]⟩
        "2" (t0 + 2) =
          computeLocalOpinion M (cfg.Zeta * cfg.Theta) (2 * cfg.Zeta * cfg.Tau) 0.8) := by
  refine ⟨fun rm target now => computeDirectOpinion_eq M rm target now, ?_⟩
  intro cfg t0 u1 p1 u2 p2 h2
  have w : ∀ r : Interaction F, r.Timestamp = t0 ∨ r.Timestamp = t0 + 1 →
      recencyWeight cfg (t0 + 2) r = cfg.Zeta := by
    intro r hr
    unfold recencyWeight
    rw [if_pos]
    rcases hr with hr | hr <;> rw [hr] <;> linarith
  have hp : posMass cfg (t0 + 2) (recordsTowards
      [⟨"1", "2", 1, 0, t0, 0.9, u1, p1⟩, ⟨"1", "2", 0, 2, t0 + 1, 0.7, u2, p2⟩] "2") =
        cfg.Zeta * cfg.Theta := by
    simp [posMass, recordsTowards, w]
  have hn : negMass cfg (t0 + 2) (recordsTowards
      [⟨"1", "2", 1, 0, t0, 0.9, u1, p1⟩, ⟨"1", "2", 0, 2, t0 + 1, 0.7, u2, p2⟩] "2") =
        2 * cfg.Zeta * cfg.Tau := by
    simp [negMass, recordsTowards, w]
    ring
  have hq : meanCommQuality (recordsTowards
      [(⟨"1", "2", 1, 0, t0, 0.9, u1, p1⟩ : Interaction F),
        ⟨"1", "2", 0, 2, t0 + 1, 0.7, u2, p2⟩] "2") = 0.8 := by
    simp [meanCommQuality, recordsTowards]
    norm_num
  refine ⟨hp, hn, hq, ?_⟩
  rw [computeDirectOpinion_eq]
  simp only [hp, hn, hq]

/-- C1 at a concrete input: the sample configuration (TRecent = 5), t0 = 0. -/
theorem C1_witness :
    (2 : ℝ) ≤ (sampleConfig : Config ℝ).TRecent ∧
    computeDirectOpinion realMath
        ⟨sampleConfig, [⟨"1", "2", 1, 0, 0, 0.9, [], []⟩, ⟨"1", "2", 0, 2, 0 + 1, 0.7, [], []⟩]⟩
        "2" (0 + 2) =
      computeLocalOpinion realMath ((sampleConfig : Config ℝ).Zeta * (sampleConfig : Config ℝ).Theta)
        (2 * (sampleConfig : Config ℝ).Zeta * (sampleConfig : Config ℝ).Tau) 0.8 :=
  ⟨by norm_num [sampleConfig],
    ((C1_directOpinion_is_localOpinion_of_weighted_masses realMath).2 sampleConfig 0 [] [] [] []
      (by norm_num [sampleConfig])).2.2.2⟩

/-- C2 (the code at the failing input): with zero evidence mass
computeLocalOpinion returns (0, 0, 1 - commQuality), the baseline uncertainty,
and not (0, 0, 1); at commQuality = 0.5 the uncertainty is 0.5. -/
theorem C2_zero_mass_keeps_baseline_uncertainty (M : MathFns F) :
    (∀ c : F, computeLocalOpinion M 0 0 c = ⟨0, 0, 1 - c⟩) ∧
    (computeLocalOpinion M 0 0 0.5).Uncertainty = 0.5 ∧
    (computeLocalOpinion M 0 0 0.5).Uncertainty ≠ 1 := by
  refine ⟨computeLocalOpinion_zero M, ?_, ?_⟩
  · rw [computeLocalOpinion_zero]; norm_num
  · rw [computeLocalOpinion_zero]; norm_num

/-- C3: for posMass, negMass >= 0 with posMass + negMass > 0 and every
commQuality, computeLocalOpinion returns
belief = commQuality * posMass / (posMass + negMass) * tanh(posMass / 30),
disbelief = commQuality * negMass / (posMass + negMass) * tanh(negMass / 50),
uncertainty = 1 - belief - disbelief, and the three components sum to 1. -/
theorem C3_localOpinion_formula (M : MathFns F) (alpha beta commQuality : F)
    (_hp : 0 ≤ alpha) (_hn : 0 ≤ beta) (hpos : 0 < alpha + beta) :
    (computeLocalOpinion M alpha beta commQuality).Belief =
        commQuality * alpha / (alpha + beta) * M.Tanh (alpha / 30) ∧
    (computeLocalOpinion M alpha beta commQuality).Disbelief =
        commQuality * beta / (alpha + beta) * M.Tanh (beta / 50) ∧
    (computeLocalOpinion M alpha beta commQuality).Uncertainty =
        1 - (computeLocalOpinion M alpha beta commQuality).Belief
          - (computeLocalOpinion M alpha beta commQuality).Disbelief ∧
    (computeLocalOpinion M alpha beta commQuality).Belief
      + (computeLocalOpinion M alpha beta commQuality).Disbelief
      + (computeLocalOpinion M alpha beta commQuality).Uncertainty = 1 := by
  rw [computeLocalOpinion_pos M alpha beta commQuality hpos]
  refine ⟨?_, ?_, rfl, ?_⟩
  · simp only [mul_div_assoc]
  · simp only [mul_div_assoc]
  · ring

/-- C3 at a concrete input: posMass = 3, negMass = 1, commQuality = 0.9 with
the real tanh. -/
theorem C3_witness :
    (computeLocalOpinion realMath 3 1 0.9).Belief = 0.9 * 3 / (3 + 1) * Real.tanh (3 / 30) ∧
    (computeLocalOpinion realMath 3 1 0.9).Disbelief = 0.9 * 1 / (3 + 1) * Real.tanh (1 / 50) ∧
    (computeLocalOpinion realMath 3 1 0.9).Uncertainty =
        1 - (computeLocalOpinion realMath 3 1 0.9).Belief
          - (computeLocalOpinion realMath 3 1 0.9).Disbelief ∧
    (computeLocalOpinion realMath 3 1 0.9).Belief
      + (computeLocalOpinion realMath 3 1 0.9).Disbelief
      + (computeLocalOpinion realMath 3 1 0.9).Uncertainty = 1 :=
  C3_localOpinion_formula realMath 3 1 0.9 (by norm_num) (by norm_num) (by norm_num)

/-- C4: ComputeReputation returns Belief + Gamma * Uncertainty of the
manager own direct opinion of the target; the peer map, the neighbour list and
the caller id (hence the recommended opinion) do not influence the result. -/
theorem C4_reputation_is_direct_opinion_score (M : MathFns F) (rm : ReputationManager F)
    (myID target : String) (neighbors : List String) (now : F) :
    ComputeReputation M rm myID target neighbors now =
        (computeDirectOpinion M rm.toAgent target now).Belief
          + rm.cfg.Gamma * (computeDirectOpinion M rm.toAgent target now).Uncertainty ∧
    ∀ (peers2 : String → Option (Agent F)) (myID2 : String) (neighbors2 : List String),
      ComputeReputation M { rm with peers := peers2 } myID2 target neighbors2 now =
        ComputeReputation M rm myID target neighbors now := by
  refine ⟨rfl, ?_⟩
  intro peers2 myID2 neighbors2
  rfl

/-- C5 (the code on an unobserved target): when the log holds no record whose
recipient is the target, the direct opinion is (0, 0, 0.5), not (0, 0, 1), and
ComputeReputation returns Gamma * 0.5, not Gamma. -/
theorem C5_unobserved_target_reputation (M : MathFns F) (rm : ReputationManager F)
    (myID target : String) (neighbors : List String) (now : F)
    (h : recordsTowards rm.interactions target = []) :
    computeDirectOpinion M rm.toAgent target now = ⟨0, 0, 0.5⟩ ∧
    ComputeReputation M rm myID target neighbors now = rm.cfg.Gamma * 0.5 := by
  have hd : computeDirectOpinion M rm.toAgent target now = ⟨0, 0, 0.5⟩ := by
    rw [computeDirectOpinion_eq, h]
    simp only [posMass, negMass, meanCommQuality, List.map_nil, List.sum_nil, List.length_nil,
      if_true, computeLocalOpinion_zero]
    norm_num
  refine ⟨hd, ?_⟩
  simp only [ComputeReputation, combineOpinions, opinionToReputation, hd]
  ring

/-- C5 at a concrete input: a fresh manager with Gamma = 0.5 scores an
unobserved target 0.25, not 0.5. -/
theorem C5_witness :
    recordsTowards (NewReputationManager (sampleConfig : Config ℝ)).interactions "2" = [] ∧
    ComputeReputation realMath (NewReputationManager sampleConfig) "1" "2" [] 0 = 1 / 4 ∧
    ComputeReputation realMath (NewReputationManager sampleConfig) "1" "2" [] 0
      ≠ (sampleConfig : Config ℝ).Gamma := by
  have h := C5_unobserved_target_reputation realMath
    (NewReputationManager sampleConfig) "1" "2" [] 0 rfl
  refine ⟨rfl, ?_, ?_⟩
  · rw [h.2]; norm_num [NewReputationManager, sampleConfig]
  · rw [h.2]; norm_num [NewReputationManager, sampleConfig]

/-- C6: for a non-empty candidate list, and sort.Slice meeting its contract,
SelectOptimalProvider returns a member of the candidate list whose reputation
score is >= the score of every candidate; when the scores of the candidates are
pairwise distinct, every other candidate scores strictly less, so the result is
exactly the candidate of strictly greatest score. -/
theorem C6_selects_candidate_of_greatest_score
    (sortSlice : (candidateScore F → candidateScore F → Bool) →
      List (candidateScore F) → List (candidateScore F))
    (hsort : IsSortSlice sortSlice) (M : MathFns F) (rm : ReputationManager F) (myID : String)
    (candidates neighbors : List String) (now : F) (hne : candidates ≠ []) :
    (SelectOptimalProvider sortSlice M rm myID candidates neighbors now ∈ candidates ∧
      ∀ c ∈ candidates, ComputeReputation M rm myID c neighbors now ≤
        ComputeReputation M rm myID
          (SelectOptimalProvider sortSlice M rm myID candidates neighbors now) neighbors now) ∧
    ((candidates.map fun c => ComputeReputation M rm myID c neighbors now).Nodup →
      ∀ c ∈ candidates, c ≠ SelectOptimalProvider sortSlice M rm myID candidates neighbors now →
        ComputeReputation M rm myID c neighbors now <
          ComputeReputation M rm myID
            (SelectOptimalProvider sortSlice M rm myID candidates neighbors now) neighbors now) := by
  obtain ⟨top, rest, -, hsel, hmem, hrep, hmax⟩ :=
    selectOptimalProvider_spec sortSlice hsort M rm myID candidates neighbors now hne
  rw [hsel, ← hrep]
  refine ⟨⟨hmem, hmax⟩, ?_⟩
  intro hnd c hc hcne
  refine lt_of_le_of_ne (hmax c hc) ?_
  intro heq
  rw [hrep] at heq
  exact hcne (List.inj_on_of_nodup_map hnd hc hmem heq)

/-- C6 at a concrete input: insertion sort as the sort, candidates "a"
(unobserved, score 0.25) and "b" (one positive record, score above 0.5). -/
theorem C6_witness :
    IsSortSlice (stableSlice (F := ℝ)) ∧ (["a", "b"] : List String) ≠ [] ∧
    ((["a", "b"] : List String).map fun c => ComputeReputation realMath
      (AddInteraction (NewReputationManager sampleConfig) ⟨"me", "b", 1, 0, 0, 0.9, [], []⟩)
      "me" c [] 0).Nodup ∧
    ∀ c ∈ (["a", "b"] : List String),
      c ≠ SelectOptimalProvider stableSlice realMath
        (AddInteraction (NewReputationManager sampleConfig) ⟨"me", "b", 1, 0, 0, 0.9, [], []⟩)
        "me" ["a", "b"] [] 0 →
      ComputeReputation realMath
        (AddInteraction (NewReputationManager sampleConfig) ⟨"me", "b", 1, 0, 0, 0.9, [], []⟩)
        "me" c [] 0 <
      ComputeReputation realMath
        (AddInteraction (NewReputationManager sampleConfig) ⟨"me", "b", 1, 0, 0, 0.9, [], []⟩)
        "me" (SelectOptimalProvider stableSlice realMath
          (AddInteraction (NewReputationManager sampleConfig) ⟨"me", "b", 1, 0, 0, 0.9, [], []⟩)
          "me" ["a", "b"] [] 0) [] 0 := by
  have hnd : ((["a", "b"] : List String).map fun c => ComputeReputation realMath
      (AddInteraction (NewReputationManager sampleConfig) ⟨"me", "b", 1, 0, 0, 0.9, [], []⟩)
      "me" c [] 0).Nodup := by
    have ha : ComputeReputation realMath
        (AddInteraction (NewReputationManager sampleConfig) ⟨"me", "b", 1, 0, 0, 0.9, [], []⟩)
        "me" "a" [] 0 = 1 / 4 := by
      rw [computeReputation_eq]
      simp [AddInteraction, NewReputationManager, recordsTowards, posMass, negMass,
        meanCommQuality, computeLocalOpinion, opinionToReputation, sampleConfig]
      norm_num
    have hb : (1 : ℝ) / 2 ≤ ComputeReputation realMath
        (AddInteraction (NewReputationManager sampleConfig) ⟨"me", "b", 1, 0, 0, 0.9, [], []⟩)
        "me" "b" [] 0 := by
      rw [computeReputation_eq]
      have ht : 0 ≤ Real.tanh (7 / 10 / 30) := tanh_nonneg (by norm_num)
      simp [AddInteraction, NewReputationManager, recordsTowards, posMass, negMass,
        meanCommQuality, computeLocalOpinion, opinionToReputation, sampleConfig,
        recencyWeight, realMath]
      norm_num
      linarith
    simp only [List.map_cons, List.map_nil, List.nodup_cons, List.mem_singleton,
      List.not_mem_nil, not_false_eq_true, List.nodup_nil, and_true]
    rw [ha]
    intro h
    rw [← h] at hb
    norm_num at hb
  exact ⟨stableSlice_isSortSlice, by simp, hnd,
    (C6_selects_candidate_of_greatest_score stableSlice stableSlice_isSortSlice realMath _ "me"
      ["a", "b"] [] 0 (by simp)).2 hnd⟩

/-- C7 (as amended): when several candidates share the maximal reputation
score, SelectOptimalProvider returns one of them, for candidate lists of every
length: for sort.Slice meeting its contract and any candidate c whose score is
>= the score of every candidate, the returned id is a candidate and its score
equals the score of c. Which of the tied candidates is returned is left open. -/
theorem C7_returns_one_of_the_tied_maximal_candidates
    (sortSlice : (candidateScore F → candidateScore F → Bool) →
      List (candidateScore F) → List (candidateScore F))
    (hsort : IsSortSlice sortSlice) (M : MathFns F) (rm : ReputationManager F) (myID : String)
    (candidates neighbors : List String) (now : F) (c : String) (hc : c ∈ candidates)
    (hmax : ∀ c2 ∈ candidates, ComputeReputation M rm myID c2 neighbors now ≤
      ComputeReputation M rm myID c neighbors now) :
    SelectOptimalProvider sortSlice M rm myID candidates neighbors now ∈ candidates ∧
    ComputeReputation M rm myID
        (SelectOptimalProvider sortSlice M rm myID candidates neighbors now) neighbors now =
      ComputeReputation M rm myID c neighbors now := by
  have hne : candidates ≠ [] := List.ne_nil_of_mem hc
  obtain ⟨top, rest, -, hsel, hmem, hrep, htop⟩ :=
    selectOptimalProvider_spec sortSlice hsort M rm myID candidates neighbors now hne
  rw [hsel]
  refine ⟨hmem, le_antisymm (hmax top.id hmem) ?_⟩
  rw [← hrep]
  exact htop c hc

/-- C7 (as amended) at a concrete input: the thirteen tiedCandidates of
tiedManager, where "a" and "b" share the maximal score, sorted by the
contract-meeting lateTieSlice (which puts "b" first): the returned id is a
candidate with the score of "a". -/
theorem C7_witness :
    IsSortSlice (lateTieSlice (F := ℝ)) ∧ "a" ∈ tiedCandidates ∧
    (∀ c2 ∈ tiedCandidates, ComputeReputation realMath tiedManager "me" c2 [] 0 ≤
      ComputeReputation realMath tiedManager "me" "a" [] 0) ∧
    SelectOptimalProvider lateTieSlice realMath tiedManager "me" tiedCandidates [] 0 ∈
      tiedCandidates ∧
    ComputeReputation realMath tiedManager "me"
        (SelectOptimalProvider lateTieSlice realMath tiedManager "me" tiedCandidates [] 0) [] 0 =
      ComputeReputation realMath tiedManager "me" "a" [] 0 := by
  have hmax : ∀ c2 ∈ tiedCandidates, ComputeReputation realMath tiedManager "me" c2 [] 0 ≤
      ComputeReputation realMath tiedManager "me" "a" [] 0 := by
    obtain ⟨hab, ha, hlow⟩ := tiedManager_scores
    intro c2 _
    by_cases hca : c2 = "a"
    · rw [hca]
    · by_cases hcb : c2 = "b"
      · rw [hcb, hab]
      · rw [hlow c2 hca hcb]; exact le_of_lt ha
  have hmem : "a" ∈ tiedCandidates := by simp [tiedCandidates]
  exact ⟨lateTieSlice_isSortSlice, hmem, hmax,
    C7_returns_one_of_the_tied_maximal_candidates lateTieSlice lateTieSlice_isSortSlice
      realMath tiedManager "me" tiedCandidates [] 0 "a" hmem hmax⟩

/-- C7 fails as stated: a sort that meets the contract of sort.Slice (sorted
rearrangement, no stability promised) makes SelectOptimalProvider return "b" on
the thirteen tiedCandidates, although "a" has the same maximal score and stands
before "b" in the candidate list. -/
theorem C7_counterexample :
    ∃ sortSlice : (candidateScore ℝ → candidateScore ℝ → Bool) →
        List (candidateScore ℝ) → List (candidateScore ℝ),
      IsSortSlice sortSlice ∧
      (∀ c ∈ tiedCandidates, ComputeReputation realMath tiedManager "me" c [] 0 ≤
        ComputeReputation realMath tiedManager "me" "a" [] 0) ∧
      ComputeReputation realMath tiedManager "me" "a" [] 0 =
        ComputeReputation realMath tiedManager "me" "b" [] 0 ∧
      SelectOptimalProvider sortSlice realMath tiedManager "me" tiedCandidates [] 0 = "b" := by
  obtain ⟨hab, ha, hlow⟩ := tiedManager_scores
  refine ⟨lateTieSlice, lateTieSlice_isSortSlice, ?_, hab, ?_⟩
  · intro c hc
    by_cases hca : c = "a"
    · rw [hca]
    · by_cases hcb : c = "b"
      · rw [hcb, hab]
      · rw [hlow c hca hcb]; exact le_of_lt ha
  · have hb : (1 : ℝ) / 4 < ComputeReputation realMath tiedManager "me" "b" [] 0 := by
      rw [← hab]; exact ha
    simp only [SelectOptimalProvider, tiedCandidates, lateTieSlice, List.map, List.length,
      List.reverse_cons, List.reverse_nil, List.nil_append, List.cons_append,
      List.singleton_append]
    rw [hab, hlow "c0" (by decide) (by decide), hlow "c2" (by decide) (by decide),
      hlow "c3" (by decide) (by decide), hlow "c4" (by decide) (by decide),
      hlow "c5" (by decide) (by decide), hlow "c6" (by decide) (by decide),
      hlow "c7" (by decide) (by decide), hlow "c8" (by decide) (by decide),
      hlow "c9" (by decide) (by decide), hlow "c10" (by decide) (by decide),
      hlow "c11" (by decide) (by decide)]
    have h1 : (4 : ℝ)⁻¹ ≤ ComputeReputation realMath tiedManager "me" "b" [] 0 := by
      rw [← one_div]; exact le_of_lt hb
    have h2 : ¬ ComputeReputation realMath tiedManager "me" "b" [] 0 ≤ (4 : ℝ)⁻¹ := by
      rw [← one_div]; exact not_le.2 hb
    simp [List.insertionSort, List.orderedInsert, scoreLess, h1, h2]

/-- C8 (as amended): Gamma in [0,1], Zeta >= 0, Theta >= 0, a base log without
records towards A, and in each of 5 rounds one record towards A with
PosEvents = 1, NegEvents = 0, CommQuality = 0.9 is appended. Provided every
appended record is still recent at every round in which it is in the log
(t j - Timestamp <= TRecent), the reputation of A computed at round k + 1 is >=
the one computed at round k, for k = 1..4. -/
theorem C8_positive_rounds_nondecreasing_while_recent
    (rm0 : ReputationManager ℝ) (recs : Nat → Interaction ℝ) (t : Nat → ℝ)
    (A myID : String) (neighbors : List String)
    (hg0 : 0 ≤ rm0.cfg.Gamma) (hg1 : rm0.cfg.Gamma ≤ 1)
    (hz : 0 ≤ rm0.cfg.Zeta) (hth : 0 ≤ rm0.cfg.Theta)
    (hbase : ∀ r ∈ rm0.interactions, r.To ≠ A)
    (hrec : ∀ j, (recs j).To = A ∧ (recs j).PosEvents = 1 ∧ (recs j).NegEvents = 0 ∧
      (recs j).CommQuality = 0.9)
    (hrecent : ∀ i j, 1 ≤ i → i ≤ j → j ≤ 5 → t j - (recs i).Timestamp ≤ rm0.cfg.TRecent)
    (k : Nat) (hk1 : 1 ≤ k) (hk4 : k ≤ 4) :
    ComputeReputation realMath (logAfterRounds rm0 recs k) myID A neighbors (t k) ≤
      ComputeReputation realMath (logAfterRounds rm0 recs (k + 1)) myID A neighbors
        (t (k + 1)) := by
  rw [reputation_rounds_all_recent realMath rm0 recs A myID neighbors (t k) 1 0 0.9 k hk1 hbase
      hrec (fun i hi hik => hrecent i k hi hik (by omega)),
    reputation_rounds_all_recent realMath rm0 recs A myID neighbors (t (k + 1)) 1 0 0.9 (k + 1)
      (by omega) hbase hrec (fun i hi hik => hrecent i (k + 1) hi hik (by omega))]
  simp only [Int.cast_zero, mul_zero, Int.cast_one, mul_one]
  have hzt : 0 ≤ rm0.cfg.Zeta * rm0.cfg.Theta := mul_nonneg hz hth
  refine reputation_pos_mono rm0.cfg 0.9 _ _ hg0 hg1 (by norm_num) (by positivity) ?_
  push_cast
  nlinarith

/-- C8 (as amended) at a concrete input: the sample configuration, rounds one
second apart (all five within TRecent = 5), rounds 4 and 5. -/
theorem C8_witness :
    ComputeReputation realMath
        (logAfterRounds (NewReputationManager sampleConfig) (positiveRound steadyTimes) 4)
        "observer" "A" [] (steadyTimes 4) ≤
      ComputeReputation realMath
        (logAfterRounds (NewReputationManager sampleConfig) (positiveRound steadyTimes) (4 + 1))
        "observer" "A" [] (steadyTimes (4 + 1)) :=
  C8_positive_rounds_nondecreasing_while_recent (NewReputationManager sampleConfig)
    (positiveRound steadyTimes) steadyTimes "A" "observer" []
    (by norm_num [NewReputationManager, sampleConfig])
    (by norm_num [NewReputationManager, sampleConfig])
    (by norm_num [NewReputationManager, sampleConfig])
    (by norm_num [NewReputationManager, sampleConfig])
    (by simp [NewReputationManager])
    (fun j => ⟨rfl, rfl, rfl, rfl⟩)
    (fun i j hi hij hj => steadyTimes_recent i j hi hij hj)
    4 (by norm_num) (by norm_num)

/-- C8 fails as stated: with the sample configuration (Zeta = 0.7 > Sigma =
0.3, TRecent = 5) and the non-decreasing round times 0, 1, 2, 10, 11, the three
records of rounds 1 to 3 have become past at round 4, the positive mass drops
from 2.1 to 1.6, and the reputation after round 4 is strictly below the
reputation after round 3. -/
theorem C8_counterexample :
    (agingTimes 1 : ℝ) ≤ agingTimes 2 ∧ (agingTimes 2 : ℝ) ≤ agingTimes 3 ∧
    (agingTimes 3 : ℝ) ≤ agingTimes 4 ∧ (agingTimes 4 : ℝ) ≤ agingTimes 5 ∧
    ComputeReputation realMath
        (logAfterRounds (NewReputationManager sampleConfig) (positiveRound agingTimes) 4)
        "observer" "A" [] (agingTimes 4) <
      ComputeReputation realMath
        (logAfterRounds (NewReputationManager sampleConfig) (positiveRound agingTimes) 3)
        "observer" "A" [] (agingTimes 3) := by
  refine ⟨by norm_num [agingTimes], by norm_num [agingTimes], by norm_num [agingTimes],
    by norm_num [agingTimes], ?_⟩
  have h3 : ComputeReputation realMath
      (logAfterRounds (NewReputationManager sampleConfig) (positiveRound agingTimes) 3)
      "observer" "A" [] (agingTimes 3) =
        opinionToReputation sampleConfig (computeLocalOpinion realMath (21 / 10) 0 0.9) := by
    refine reputation_of_masses realMath _ _ _ _ _ _ _ _ ?_ ?_ ?_
    · simp [logAfterRounds, List.range_succ, AddInteraction, NewReputationManager, recordsTowards,
        positiveRound, posMass, recencyWeight, agingTimes, sampleConfig]
      norm_num
    · simp [logAfterRounds, List.range_succ, AddInteraction, NewReputationManager, recordsTowards,
        positiveRound, negMass]
    · simp [logAfterRounds, List.range_succ, AddInteraction, NewReputationManager, recordsTowards,
        positiveRound, meanCommQuality]
      norm_num
  have h4 : ComputeReputation realMath
      (logAfterRounds (NewReputationManager sampleConfig) (positiveRound agingTimes) 4)
      "observer" "A" [] (agingTimes 4) =
        opinionToReputation sampleConfig (computeLocalOpinion realMath (16 / 10) 0 0.9) := by
    refine reputation_of_masses realMath _ _ _ _ _ _ _ _ ?_ ?_ ?_
    · simp [logAfterRounds, List.range_succ, AddInteraction, NewReputationManager, recordsTowards,
        positiveRound, posMass, recencyWeight, agingTimes, sampleConfig]
      norm_num
    · simp [logAfterRounds, List.range_succ, AddInteraction, NewReputationManager, recordsTowards,
        positiveRound, negMass]
    · simp [logAfterRounds, List.range_succ, AddInteraction, NewReputationManager, recordsTowards,
        positiveRound, meanCommQuality]
      norm_num
  rw [h3, h4, computeLocalOpinion_pos realMath _ _ _ (by norm_num),
    computeLocalOpinion_pos realMath _ _ _ (by norm_num)]
  have hlt : Real.tanh (16 / 10 / 30) < Real.tanh (21 / 10 / 30) :=
    tanh_strictMono (by norm_num)
  simp only [opinionToReputation, realMath, sampleConfig]
  norm_num
  linarith

/-- C9 (as amended): Gamma >= 0, Zeta >= 0, Tau >= 0, a base log without
records towards A, and in each of 5 rounds one record towards A with
PosEvents = 0, a fixed NegEvents > 0 and a fixed CommQuality >= 0 is appended.
Provided every appended record is still recent at every round in which it is
in the log, the reputation of A computed at round k + 1 is <= the one computed
at round k, for k = 1..4. -/
theorem C9_negative_rounds_nonincreasing_while_recent
    (rm0 : ReputationManager ℝ) (recs : Nat → Interaction ℝ) (t : Nat → ℝ)
    (A myID : String) (neighbors : List String) (negEvents : Int) (commQuality : ℝ)
    (hg0 : 0 ≤ rm0.cfg.Gamma) (hz : 0 ≤ rm0.cfg.Zeta) (hta : 0 ≤ rm0.cfg.Tau)
    (hn : 0 < negEvents) (hc : 0 ≤ commQuality)
    (hbase : ∀ r ∈ rm0.interactions, r.To ≠ A)
    (hrec : ∀ j, (recs j).To = A ∧ (recs j).PosEvents = 0 ∧ (recs j).NegEvents = negEvents ∧
      (recs j).CommQuality = commQuality)
    (hrecent : ∀ i j, 1 ≤ i → i ≤ j → j ≤ 5 → t j - (recs i).Timestamp ≤ rm0.cfg.TRecent)
    (k : Nat) (hk1 : 1 ≤ k) (hk4 : k ≤ 4) :
    ComputeReputation realMath (logAfterRounds rm0 recs (k + 1)) myID A neighbors (t (k + 1)) ≤
      ComputeReputation realMath (logAfterRounds rm0 recs k) myID A neighbors (t k) := by
  rw [reputation_rounds_all_recent realMath rm0 recs A myID neighbors (t k) 0 negEvents
      commQuality k hk1 hbase hrec (fun i hi hik => hrecent i k hi hik (by omega)),
    reputation_rounds_all_recent realMath rm0 recs A myID neighbors (t (k + 1)) 0 negEvents
      commQuality (k + 1) (by omega) hbase hrec
      (fun i hi hik => hrecent i (k + 1) hi hik (by omega))]
  simp only [Int.cast_zero, mul_zero]
  have hn' : (0 : ℝ) < (negEvents : ℝ) := by exact_mod_cast hn
  have hzt : 0 ≤ rm0.cfg.Zeta * rm0.cfg.Tau * (negEvents : ℝ) :=
    mul_nonneg (mul_nonneg hz hta) (le_of_lt hn')
  have hk' : (1 : ℝ) ≤ (k : ℝ) := by exact_mod_cast hk1
  rcases eq_or_lt_of_le hzt with h0 | h0
  · rw [← h0, mul_zero, mul_zero]
  · refine reputation_neg_anti rm0.cfg commQuality _ _ hg0 hc (by positivity) ?_
    push_cast
    nlinarith

/-- C9 (as amended) at a concrete input: the sample configuration, rounds one
second apart, NegEvents = 2, CommQuality = 0.9, rounds 4 and 5. -/
theorem C9_witness :
    ComputeReputation realMath
        (logAfterRounds (NewReputationManager sampleConfig) (negativeRound steadyTimes) (4 + 1))
        "observer" "A" [] (steadyTimes (4 + 1)) ≤
      ComputeReputation realMath
        (logAfterRounds (NewReputationManager sampleConfig) (negativeRound steadyTimes) 4)
        "observer" "A" [] (steadyTimes 4) :=
  C9_negative_rounds_nonincreasing_while_recent (NewReputationManager sampleConfig)
    (negativeRound steadyTimes) steadyTimes "A" "observer" [] 2 0.9
    (by norm_num [NewReputationManager, sampleConfig])
    (by norm_num [NewReputationManager, sampleConfig])
    (by norm_num [NewReputationManager, sampleConfig])
    (by norm_num) (by norm_num)
    (by simp [NewReputationManager])
    (fun j => ⟨rfl, rfl, rfl, rfl⟩)
    (fun i j hi hij hj => steadyTimes_recent i j hi hij hj)
    4 (by norm_num) (by norm_num)

/-- C9 fails as stated: with the sample configuration and the non-decreasing
round times 0, 1, 2, 10, 11, the negative mass drops from 4.2 at round 3 to 3.2
at round 4 (the first three records have become past), and the reputation
after round 4 is strictly above the reputation after round 3. -/
theorem C9_counterexample :
    (agingTimes 1 : ℝ) ≤ agingTimes 2 ∧ (agingTimes 2 : ℝ) ≤ agingTimes 3 ∧
    (agingTimes 3 : ℝ) ≤ agingTimes 4 ∧ (agingTimes 4 : ℝ) ≤ agingTimes 5 ∧
    ComputeReputation realMath
        (logAfterRounds (NewReputationManager sampleConfig) (negativeRound agingTimes) 3)
        "observer" "A" [] (agingTimes 3) <
      ComputeReputation realMath
        (logAfterRounds (NewReputationManager sampleConfig) (negativeRound agingTimes) 4)
        "observer" "A" [] (agingTimes 4) := by
  refine ⟨by norm_num [agingTimes], by norm_num [agingTimes], by norm_num [agingTimes],
    by norm_num [agingTimes], ?_⟩
  have h3 : ComputeReputation realMath
      (logAfterRounds (NewReputationManager sampleConfig) (negativeRound agingTimes) 3)
      "observer" "A" [] (agingTimes 3) =
        opinionToReputation sampleConfig (computeLocalOpinion realMath 0 (42 / 10) 0.9) := by
    refine reputation_of_masses realMath _ _ _ _ _ _ _ _ ?_ ?_ ?_
    · simp [logAfterRounds, List.range_succ, AddInteraction, NewReputationManager, recordsTowards,
        negativeRound, posMass]
    · simp [logAfterRounds, List.range_succ, AddInteraction, NewReputationManager, recordsTowards,
        negativeRound, negMass, recencyWeight, agingTimes, sampleConfig]
      norm_num
    · simp [logAfterRounds, List.range_succ, AddInteraction, NewReputationManager, recordsTowards,
        negativeRound, meanCommQuality]
      norm_num
  have h4 : ComputeReputation realMath
      (logAfterRounds (NewReputationManager sampleConfig) (negativeRound agingTimes) 4)
      "observer" "A" [] (agingTimes 4) =
        opinionToReputation sampleConfig (computeLocalOpinion realMath 0 (32 / 10) 0.9) := by
    refine reputation_of_masses realMath _ _ _ _ _ _ _ _ ?_ ?_ ?_
    · simp [logAfterRounds, List.range_succ, AddInteraction, NewReputationManager, recordsTowards,
        negativeRound, posMass]
    · simp [logAfterRounds, List.range_succ, AddInteraction, NewReputationManager, recordsTowards,
        negativeRound, negMass, recencyWeight, agingTimes, sampleConfig]
      norm_num
    · simp [logAfterRounds, List.range_succ, AddInteraction, NewReputationManager, recordsTowards,
        negativeRound, meanCommQuality]
      norm_num
  rw [h3, h4, computeLocalOpinion_pos realMath _ _ _ (by norm_num),
    computeLocalOpinion_pos realMath _ _ _ (by norm_num)]
  have hlt : Real.tanh (32 / 10 / 50) < Real.tanh (42 / 10 / 50) :=
    tanh_strictMono (by norm_num)
  simp only [opinionToReputation, realMath, sampleConfig]
  norm_num
  linarith

/-- C10: computeLCS(A, B) is the maximum length of a common order-preserving
subsequence of A and B under the tolerance match |x - y| < 0.05 (some common
matching has that length and none is longer), although the match relation is
not transitive (0 matches 0.04, 0.04 matches 0.08, 0 does not match 0.08); and
computeLocationDifference is 0 when both trajectories are empty and
(max(|A|,|B|) - LCS) / max(|A|,|B|) otherwise. -/
theorem C10_computeLCS_is_longest_common_subsequence :
    (∀ A B : List F,
      (∃ ps : List (F × F), IsCommonMatching ps A B ∧ ps.length = computeLCS A B) ∧
      ∀ ps : List (F × F), IsCommonMatching ps A B → ps.length ≤ computeLCS A B) ∧
    (locMatch (0 : F) 0.04 = true ∧ locMatch (0.04 : F) 0.08 = true ∧
      locMatch (0 : F) 0.08 = false) ∧
    (∀ traj1 traj2 : List (Vector F),
      (traj1 = [] ∧ traj2 = [] → computeLocationDifference traj1 traj2 = 0) ∧
      (¬ (traj1 = [] ∧ traj2 = []) →
        computeLocationDifference traj1 traj2 =
          (max (traj1.length : F) (traj2.length : F) -
              (computeLCS (traj1.map fun v => v.Location) (traj2.map fun v => v.Location) : F)) /
            max (traj1.length : F) (traj2.length : F))) := by
  refine ⟨computeLCS_isMax, ⟨?_, ?_, ?_⟩, ?_⟩
  · rw [locMatch_iff]; norm_num [abs_lt]
  · rw [locMatch_iff]; norm_num [abs_lt]
  · rw [Bool.eq_false_iff, Ne, locMatch_iff]; norm_num [abs_lt]
  · intro traj1 traj2
    constructor
    · rintro ⟨rfl, rfl⟩
      simp [computeLocationDifference]
    · intro hne
      have hmax : max (traj1.length : F) (traj2.length : F) ≠ 0 := by
        intro h0
        apply hne
        have h1 : (traj1.length : F) ≤ 0 := h0 ▸ le_max_left _ _
        have h2 : (traj2.length : F) ≤ 0 := h0 ▸ le_max_right _ _
        have h1' : traj1.length = 0 := by
          have : (traj1.length : F) = 0 := le_antisymm h1 (Nat.cast_nonneg _)
          exact_mod_cast this
        have h2' : traj2.length = 0 := by
          have : (traj2.length : F) = 0 := le_antisymm h2 (Nat.cast_nonneg _)
          exact_mod_cast this
        exact ⟨List.length_eq_zero.1 h1', List.length_eq_zero.1 h2'⟩
      simp only [computeLocationDifference, List.length_map]
      rw [if_neg hmax]

/-- C11: computeTrajectorySimilarity returns 0 when either trajectory is
empty; for two non-empty trajectories it returns
1 - (Psi1 * speedDiff + Psi2 * locationDiff + Psi3 * directionDiff), where
speedDiff is 0 when max(meanSpeedA, meanSpeedB) = 0 and
|meanSpeedA - meanSpeedB| / max(meanSpeedA, meanSpeedB) otherwise. -/
theorem C11_trajectorySimilarity_formula (M : MathFns F) (cfg : Config F)
    (trajA trajB : List (Vector F)) :
    (trajA = [] ∨ trajB = [] → computeTrajectorySimilarity M cfg trajA trajB = 0) ∧
    (trajA ≠ [] → trajB ≠ [] →
      computeTrajectorySimilarity M cfg trajA trajB =
        1 - (cfg.Psi1 * computeSpeedDifference trajA trajB
          + cfg.Psi2 * computeLocationDifference trajA trajB
          + cfg.Psi3 * computeDirectionDifference M trajA trajB)) ∧
    (max (meanSpeed trajA) (meanSpeed trajB) = 0 → computeSpeedDifference trajA trajB = 0) ∧
    (max (meanSpeed trajA) (meanSpeed trajB) ≠ 0 →
      computeSpeedDifference trajA trajB =
        |meanSpeed trajA - meanSpeed trajB| / max (meanSpeed trajA) (meanSpeed trajB)) := by
  refine ⟨?_, ?_, ?_, ?_⟩
  · intro h
    have h' : trajA.length = 0 ∨ trajB.length = 0 := by
      rcases h with h | h <;> simp [h]
    simp only [computeTrajectorySimilarity, h', if_true]
  · intro hA hB
    have h' : ¬ (trajA.length = 0 ∨ trajB.length = 0) := by
      simp [List.length_eq_zero, hA, hB]
    simp only [computeTrajectorySimilarity, h', if_false]
  · intro h
    rw [computeSpeedDifference_eq, if_pos h]
  · intro h
    rw [computeSpeedDifference_eq, if_neg h]

/-- C12: for two non-empty trajectories of equal length whose positions all
differ pairwise by at least 0.05, computeLocationDifference returns 1. -/
theorem C12_locationDifference_one_of_no_match (trajA trajB : List (Vector F))
    (hne : trajA ≠ []) (_hlen : trajA.length = trajB.length)
    (hfar : ∀ v ∈ trajA, ∀ w ∈ trajB, (0.05 : F) ≤ |v.Location - w.Location|) :
    computeLocationDifference trajA trajB = 1 := by
  have hlcs : computeLCS (trajA.map fun v => v.Location) (trajB.map fun v => v.Location) = 0 := by
    apply computeLCS_eq_zero_of_no_match
    intro a ha b hb
    obtain ⟨v, hv, rfl⟩ := List.mem_map.1 ha
    obtain ⟨w, hw, rfl⟩ := List.mem_map.1 hb
    exact hfar v hv w hw
  have hpos : (0 : F) < (trajA.length : F) :=
    Nat.cast_pos.2 (List.length_pos.2 hne)
  have hmax : max (trajA.length : F) (trajB.length : F) ≠ 0 :=
    ne_of_gt (lt_of_lt_of_le hpos (le_max_left _ _))
  simp only [computeLocationDifference, List.length_map, hlcs, if_neg hmax, Nat.cast_zero,
    sub_zero]
  exact div_self hmax

/-- C12 at a concrete input: positions 0.1, 0.2 against 0.5, 0.9. -/
theorem C12_witness :
    computeLocationDifference ([⟨1, 0.1, 0⟩, ⟨1, 0.2, 0⟩] : List (Vector ℚ))
      [⟨1, 0.5, 0⟩, ⟨1, 0.9, 0⟩] = 1 :=
  C12_locationDifference_one_of_no_match [⟨1, 0.1, 0⟩, ⟨1, 0.2, 0⟩] [⟨1, 0.5, 0⟩, ⟨1, 0.9, 0⟩]
    (by simp) rfl (by
      intro v hv w hw
      simp only [List.mem_cons, List.mem_singleton, List.not_mem_nil, or_false] at hv hw
      rcases hv with rfl | rfl <;> rcases hw with rfl | rfl <;>
        (rw [le_abs]; norm_num))

/-- C13: when two trajectories (of any length) have identical position
sequences, the LCS has full length and computeLocationDifference returns 0. -/
theorem C13_locationDifference_zero_of_same_positions (trajA trajB : List (Vector F))
    (hsame : trajA.map (fun v => v.Location) = trajB.map (fun v => v.Location)) :
    (computeLCS (trajA.map fun v => v.Location) (trajB.map fun v => v.Location) = trajA.length) ∧
    computeLocationDifference trajA trajB = 0 := by
  have hlen : trajB.length = trajA.length := by
    have := congrArg List.length hsame
    simpa using this.symm
  have hlcs : computeLCS (trajA.map fun v => v.Location) (trajB.map fun v => v.Location) =
      trajA.length := by
    rw [← hsame, computeLCS_self, List.length_map]
  refine ⟨hlcs, ?_⟩
  simp only [computeLocationDifference, List.length_map, hlcs, hlen, max_self, sub_self,
    zero_div, ite_self]

/-- C13 at a concrete input: two trajectories with positions 0.1, 0.2 that
differ in speed and heading. -/
theorem C13_witness :
    computeLCS (([⟨1, 0.1, 0⟩, ⟨2, 0.2, 1⟩] : List (Vector ℚ)).map fun v => v.Location)
      (([⟨3, 0.1, 2⟩, ⟨4, 0.2, 3⟩] : List (Vector ℚ)).map fun v => v.Location) =
        ([⟨1, 0.1, 0⟩, ⟨2, 0.2, 1⟩] : List (Vector ℚ)).length ∧
    computeLocationDifference ([⟨1, 0.1, 0⟩, ⟨2, 0.2, 1⟩] : List (Vector ℚ))
      [⟨3, 0.1, 2⟩, ⟨4, 0.2, 3⟩] = 0 :=
  C13_locationDifference_zero_of_same_positions [⟨1, 0.1, 0⟩, ⟨2, 0.2, 1⟩]
    [⟨3, 0.1, 2⟩, ⟨4, 0.2, 3⟩] rfl

/-- C14: computeDirectionDifference(A, B) = computeDirectionDifference(B, A)
for all trajectories A and B. -/
theorem C14_directionDifference_symmetric (M : MathFns F) (trajA trajB : List (Vector F)) :
    computeDirectionDifference M trajA trajB = computeDirectionDifference M trajB trajA := by
  rw [computeDirectionDifference_eq, computeDirectionDifference_eq]
  have hphi : directionPhi M trajA trajB = directionPhi M trajB trajA := by
    simp only [directionPhi, abs_sub_comm (meanDirection trajA) (meanDirection trajB)]
  rw [hphi]
  by_cases h : trajA.length = 0 ∨ trajB.length = 0
  · rw [if_pos h, if_pos (Or.symm h)]
  · rw [if_neg h, if_neg (fun h' => h (Or.symm h'))]

/-- C15: computeInteractionFrequency(from, to, now) is 0 when the sender has no
record, is 0 when Navg = 0, and otherwise equals N / Navg, where N is the
weighted mass (weighted positives plus weighted negatives) of the records with
exactly this sender and recipient and Navg is the arithmetic mean, over the
distinct recipients of the sender, of the weighted mass of the records from
the sender to that recipient. -/
theorem C15_interactionFrequency_is_mass_over_average (rm : Agent F) (fromID toID : String)
    (now : F) :
    ((∀ r ∈ rm.interactions, r.From ≠ fromID) →
      computeInteractionFrequency rm fromID toID now = 0) ∧
    (averageMass rm.cfg now rm.interactions fromID = 0 →
      computeInteractionFrequency rm fromID toID now = 0) ∧
    ((∃ r ∈ rm.interactions, r.From = fromID) →
      averageMass rm.cfg now rm.interactions fromID ≠ 0 →
      computeInteractionFrequency rm fromID toID now =
        weightedMass rm.cfg now (recordsBetween rm.interactions fromID toID) /
          averageMass rm.cfg now rm.interactions fromID) := by
  rw [computeInteractionFrequency_eq]
  refine ⟨?_, ?_, ?_⟩
  · intro h
    have : recipientsOf rm.interactions fromID = [] := by
      unfold recipientsOf
      rw [List.dedup_eq_nil, List.map_eq_nil_iff, List.filter_eq_nil_iff]
      intro r hr
      simpa using h r hr
    rw [if_pos this]
  · intro h
    rw [h, div_zero, ite_self]
  · rintro ⟨r, hr, hfrom⟩ _
    have : recipientsOf rm.interactions fromID ≠ [] := by
      intro hnil
      have hmem : r.To ∈ recipientsOf rm.interactions fromID := by
        unfold recipientsOf
        rw [List.mem_dedup]
        exact List.mem_map.2 ⟨r, List.mem_filter.2 ⟨hr, by simpa using hfrom⟩, rfl⟩
      rw [hnil] at hmem
      exact absurd hmem (List.not_mem_nil _)
    rw [if_neg this]

/-- C16: multiplying PosEvents and NegEvents of every record of the log by a
positive integer k leaves computeInteractionFrequency(from, to, now) unchanged. -/
theorem C16_interactionFrequency_scale_invariant (rm : Agent F) (fromID toID : String)
    (now : F) (k : Nat) (hk : 0 < k) :
    computeInteractionFrequency
        { rm with interactions := rm.interactions.map (scaleEvents k) } fromID toID now =
      computeInteractionFrequency rm fromID toID now := by
  rw [computeInteractionFrequency_eq, computeInteractionFrequency_eq]
  simp only [recipientsOf_map_scaleEvents, recordsBetween_map_scaleEvents,
    weightedMass_map_scaleEvents, averageMass_map_scaleEvents]
  have hk' : (k : F) ≠ 0 := Nat.cast_ne_zero.2 (Nat.pos_iff_ne_zero.1 hk)
  rw [mul_div_mul_left _ _ hk']

/-- C16 at a concrete input: a log with records 1 -> 2 and 1 -> 3, k = 3. -/
theorem C16_witness :
    computeInteractionFrequency
        { (⟨sampleConfig, [⟨"1", "2", 1, 0, 0, 0.9, [], []⟩, ⟨"1", "3", 0, 2, 0, 0.7, [], []⟩]⟩ :
            Agent ℚ) with
          interactions :=
            (⟨sampleConfig, [⟨"1", "2", 1, 0, 0, 0.9, [], []⟩,
              ⟨"1", "3", 0, 2, 0, 0.7, [], []⟩]⟩ : Agent ℚ).interactions.map (scaleEvents 3) }
        "1" "2" 0 =
      computeInteractionFrequency
        (⟨sampleConfig, [⟨"1", "2", 1, 0, 0, 0.9, [], []⟩, ⟨"1", "3", 0, 2, 0, 0.7, [], []⟩]⟩ :
          Agent ℚ) "1" "2" 0 :=
  C16_interactionFrequency_scale_invariant _ "1" "2" 0 3 (by norm_num)

/-- C17: computeRecommendedOpinion returns (0, 0, 1) when the total weight of
the registered neighbours of the list is 0, in particular when no listed id is
registered (empty list or unknown ids only); otherwise it returns the
weight-normalised averages sum(w_x * b_x) / sum(w_x), sum(w_x * d_x) / sum(w_x),
sum(w_x * u_x) / sum(w_x) over the registered neighbours x of the list, where
(b_x, d_x, u_x) is the direct opinion of x about the target and w_x is
neighborWeight, computed on the log of x. -/
theorem C17_recommendedOpinion_is_weighted_average (M : MathFns F) (rm : ReputationManager F)
    (target : String) (neighbors : List String) (now : F) :
    (((registeredNeighbors rm.peers neighbors).map (neighborWeight M target now)).sum = 0 →
      computeRecommendedOpinion M rm target neighbors now = ⟨0, 0, 1⟩) ∧
    ((∀ id ∈ neighbors, rm.peers id = none) →
      computeRecommendedOpinion M rm target neighbors now = ⟨0, 0, 1⟩) ∧
    (((registeredNeighbors rm.peers neighbors).map (neighborWeight M target now)).sum ≠ 0 →
      computeRecommendedOpinion M rm target neighbors now =
        ⟨((registeredNeighbors rm.peers neighbors).map fun x =>
            neighborWeight M target now x * (computeDirectOpinion M x.2 target now).Belief).sum /
            ((registeredNeighbors rm.peers neighbors).map (neighborWeight M target now)).sum,
          ((registeredNeighbors rm.peers neighbors).map fun x =>
            neighborWeight M target now x * (computeDirectOpinion M x.2 target now).Disbelief).sum /
            ((registeredNeighbors rm.peers neighbors).map (neighborWeight M target now)).sum,
          ((registeredNeighbors rm.peers neighbors).map fun x =>
            neighborWeight M target now x * (computeDirectOpinion M x.2 target now).Uncertainty).sum /
            ((registeredNeighbors rm.peers neighbors).map (neighborWeight M target now)).sum⟩) := by
  have hzero : ((registeredNeighbors rm.peers neighbors).map (neighborWeight M target now)).sum = 0 →
      computeRecommendedOpinion M rm target neighbors now = ⟨0, 0, 1⟩ := by
    intro h
    simp only [computeRecommendedOpinion, foldl_recStep, zero_add, h, if_true]
  refine ⟨hzero, ?_, ?_⟩
  · intro hnone
    apply hzero
    have : registeredNeighbors rm.peers neighbors = [] := by
      unfold registeredNeighbors
      rw [List.filterMap_eq_nil_iff]
      intro id hid
      rw [hnone id hid]
      rfl
    rw [this]
    simp
  · intro h
    simp only [computeRecommendedOpinion, foldl_recStep, zero_add, h, if_false]

/-- C18 (the code at the failing input): for mean headings 7 and 0 the angle
fed into the piecewise formula is 2 * pi - 7 < 0, outside [0, pi], and
computeDirectionDifference returns sin(2 * pi - 7), a negative number. The
angle does lie in [0, pi] whenever |meanA - meanB| <= 2 * pi. -/
theorem C18_direction_angle_leaves_range :
    directionPhi realMath [⟨0, 0, 7⟩] [⟨0, 0, 0⟩] = 2 * Real.pi - 7 ∧
    directionPhi realMath [⟨0, 0, 7⟩] [⟨0, 0, 0⟩] < 0 ∧
    computeDirectionDifference realMath [⟨0, 0, 7⟩] [⟨0, 0, 0⟩] = Real.sin (2 * Real.pi - 7) ∧
    computeDirectionDifference realMath [⟨0, 0, 7⟩] [⟨0, 0, 0⟩] < 0 ∧
    ∀ trajA trajB : List (Vector ℝ),
      |meanDirection trajA - meanDirection trajB| ≤ 2 * Real.pi →
      0 ≤ directionPhi realMath trajA trajB ∧ directionPhi realMath trajA trajB ≤ Real.pi := by
  have hpi1 := Real.pi_gt_three
  have hpi2 := Real.pi_lt_d2
  have hphi : directionPhi realMath [⟨0, 0, 7⟩] [⟨0, 0, 0⟩] = 2 * Real.pi - 7 := by
    have h7 : Real.pi < 7 := by linarith
    simp [directionPhi, meanDirection, realMath, h7]
  have hneg : 2 * Real.pi - 7 < 0 := by
    norm_num at hpi2
    linarith
  have hval : computeDirectionDifference realMath [⟨0, 0, 7⟩] [⟨0, 0, 0⟩] =
      Real.sin (2 * Real.pi - 7) := by
    rw [computeDirectionDifference_eq, hphi]
    have hle : 2 * Real.pi - 7 ≤ Real.pi / 4 := by linarith
    simp only [List.length_singleton, one_ne_zero, or_self, if_false, realMath]
    rw [if_pos hle]
  have hsin : Real.sin (2 * Real.pi - 7) < 0 := by
    rw [Real.sin_two_pi_sub, neg_neg_iff_pos, ← Real.sin_sub_two_pi]
    apply Real.sin_pos_of_pos_of_lt_pi
    · linarith
    · linarith
  exact ⟨hphi, hphi ▸ hneg, hval, hval ▸ hsin, directionPhi_mem_of_le_two_pi⟩

/-- C19 (as amended): positive evidence saturates faster than negative
evidence: for every mass x > 0 and commQuality c in (0, 1],
tanh(x / 50) < tanh(x / 30), and the disbelief of computeLocalOpinion(0, x, c)
is smaller than the belief of computeLocalOpinion(x, 0, c). -/
theorem C19_positive_evidence_saturates_faster (x c : ℝ) (hx : 0 < x) (hc0 : 0 < c)
    (_hc1 : c ≤ 1) :
    Real.tanh (x / 50) < Real.tanh (x / 30) ∧
    (computeLocalOpinion realMath 0 x c).Disbelief <
      (computeLocalOpinion realMath x 0 c).Belief := by
  have hlt : Real.tanh (x / 50) < Real.tanh (x / 30) :=
    tanh_strictMono (by
      rw [div_lt_div_iff₀ (by norm_num) (by norm_num)]
      nlinarith)
  refine ⟨hlt, ?_⟩
  rw [computeLocalOpinion_pos realMath 0 x c (by linarith),
    computeLocalOpinion_pos realMath x 0 c (by linarith)]
  simp only [realMath, zero_add, add_zero, div_self (ne_of_gt hx), mul_one]
  exact mul_lt_mul_of_pos_left hlt hc0

/-- C19 (as amended) at a concrete input: x = 10, c = 0.9. -/
theorem C19_witness :
    Real.tanh (10 / 50) < Real.tanh (10 / 30) ∧
    (computeLocalOpinion realMath 0 10 0.9).Disbelief <
      (computeLocalOpinion realMath 10 0 0.9).Belief :=
  C19_positive_evidence_saturates_faster 10 0.9 (by norm_num) (by norm_num) (by norm_num)

/-- C19 fails as stated: at x = 1, c = 1 the negative scale factor tanh(1/50)
does not exceed the positive one tanh(1/30), and the disbelief of
computeLocalOpinion(0, 1, 1) is not greater than the belief of
computeLocalOpinion(1, 0, 1). -/
theorem C19_counterexample :
    ¬ (Real.tanh (1 / 30) < Real.tanh (1 / 50)) ∧
    ¬ ((computeLocalOpinion realMath 1 0 1).Belief <
      (computeLocalOpinion realMath 0 1 1).Disbelief) := by
  have hlt : Real.tanh (1 / 50) < Real.tanh (1 / 30) := tanh_strictMono (by norm_num)
  refine ⟨not_lt.2 (le_of_lt hlt), ?_⟩
  rw [computeLocalOpinion_pos realMath 0 1 1 (by norm_num),
    computeLocalOpinion_pos realMath 1 0 1 (by norm_num)]
  simp only [realMath]
  norm_num
  exact le_of_lt hlt

/-- C21: for a registered neighbour x, the loop of computeRecommendedOpinion
weights x with computeWeight on the trajectory pair edgeTrajectories gives; that
pair is (TrajUser, TrajProvider) of the first record of the log of x, in append
order, with From = x and To = target, whatever records follow it; when no
record has From = x and To = target both trajectories are empty, the trajectory
similarity is 0 and the weight of x is 0. -/
theorem C21_first_matching_record_gives_edge_trajectories (M : MathFns F)
    (peers : String → Option (Agent F)) (target neighborID : String) (peer : Agent F)
    (now : F) (acc : RecAcc F) (hreg : peers neighborID = some peer) :
    recStep M peers target now acc neighborID =
      { bSum := acc.bSum +
          computeWeight M peer neighborID target
            (edgeTrajectories peer.interactions neighborID target).1
            (edgeTrajectories peer.interactions neighborID target).2 now *
          (computeDirectOpinion M peer target now).Belief
        dSum := acc.dSum +
          computeWeight M peer neighborID target
            (edgeTrajectories peer.interactions neighborID target).1
            (edgeTrajectories peer.interactions neighborID target).2 now *
          (computeDirectOpinion M peer target now).Disbelief
        uSum := acc.uSum +
          computeWeight M peer neighborID target
            (edgeTrajectories peer.interactions neighborID target).1
            (edgeTrajectories peer.interactions neighborID target).2 now *
          (computeDirectOpinion M peer target now).Uncertainty
        weightSum := acc.weightSum +
          computeWeight M peer neighborID target
            (edgeTrajectories peer.interactions neighborID target).1
            (edgeTrajectories peer.interactions neighborID target).2 now } ∧
    (∀ (pre post : List (Interaction F)) (r : Interaction F),
      peer.interactions = pre ++ r :: post →
      (∀ q ∈ pre, ¬ (q.From = neighborID ∧ q.To = target)) →
      r.From = neighborID → r.To = target →
      edgeTrajectories peer.interactions neighborID target = (r.TrajUser, r.TrajProvider)) ∧
    ((∀ q ∈ peer.interactions, ¬ (q.From = neighborID ∧ q.To = target)) →
      edgeTrajectories peer.interactions neighborID target = ([], []) ∧
      computeTrajectorySimilarity M peer.cfg
        (edgeTrajectories peer.interactions neighborID target).1
        (edgeTrajectories peer.interactions neighborID target).2 = 0 ∧
      computeWeight M peer neighborID target
        (edgeTrajectories peer.interactions neighborID target).1
        (edgeTrajectories peer.interactions neighborID target).2 now = 0) := by
  refine ⟨?_, ?_, ?_⟩
  · simp only [recStep, hreg]
  · intro pre post r hlog hpre hfrom hto
    rw [hlog]
    exact edgeTrajectories_first pre post r neighborID target hpre hfrom hto
  · intro hnone
    have he := edgeTrajectories_none peer.interactions neighborID target hnone
    have hsim : computeTrajectorySimilarity M peer.cfg
        (edgeTrajectories peer.interactions neighborID target).1
        (edgeTrajectories peer.interactions neighborID target).2 = 0 := by
      rw [he]
      simp [computeTrajectorySimilarity]
    refine ⟨he, hsim, ?_⟩
    unfold computeWeight
    simp only [hsim, computeInteractionFrequency_no_edge peer neighborID target now hnone,
      mul_zero, add_zero]

/-- C21 at a concrete input: a log with a record y -> t followed by two records
x -> t carrying different trajectories; the pair of the first x -> t record is
the one used. -/
theorem C21_witness :
    edgeTrajectories
        (⟨sampleConfig,
          [⟨"y", "t", 1, 0, 0, 0.9, [⟨9, 0.9, 0⟩], [⟨9, 0.9, 0⟩]⟩,
            ⟨"x", "t", 1, 0, 1, 0.9, [⟨1, 0.1, 0⟩], [⟨2, 0.2, 0⟩]⟩,
            ⟨"x", "t", 1, 0, 2, 0.9, [⟨3, 0.3, 0⟩], [⟨4, 0.4, 0⟩]⟩]⟩ : Agent ℝ).interactions
        "x" "t" =
      ([⟨1, 0.1, 0⟩], [⟨2, 0.2, 0⟩]) :=
  (C21_first_matching_record_gives_edge_trajectories realMath
      (fun id => if id = "x" then
        some ⟨sampleConfig,
          [⟨"y", "t", 1, 0, 0, 0.9, [⟨9, 0.9, 0⟩], [⟨9, 0.9, 0⟩]⟩,
            ⟨"x", "t", 1, 0, 1, 0.9, [⟨1, 0.1, 0⟩], [⟨2, 0.2, 0⟩]⟩,
            ⟨"x", "t", 1, 0, 2, 0.9, [⟨3, 0.3, 0⟩], [⟨4, 0.4, 0⟩]⟩]⟩
        else none)
      "t" "x" _ 0 ⟨0, 0, 0, 0⟩ (by simp)).2.1
    [⟨"y", "t", 1, 0, 0, 0.9, [⟨9, 0.9, 0⟩], [⟨9, 0.9, 0⟩]⟩]
    [⟨"x", "t", 1, 0, 2, 0.9, [⟨3, 0.3, 0⟩], [⟨4, 0.4, 0⟩]⟩]
    ⟨"x", "t", 1, 0, 1, 0.9, [⟨1, 0.1, 0⟩], [⟨2, 0.2, 0⟩]⟩
    rfl (by simp) rfl rfl

/-- C22: for Psi1, Psi2, Psi3 >= 0 with Psi1 + Psi2 + Psi3 = 1 and two
trajectories whose speeds are >= 0 and whose headings lie in [-pi, pi],
computeTrajectorySimilarity (with the real sin and pi) returns a value in
[0, 1]; and for non-empty trajectories each of speedDiff, locationDiff and
directionDiff lies in [0, 1]. -/
theorem C22_trajectorySimilarity_in_unit_interval (cfg : Config ℝ)
    (trajA trajB : List (Vector ℝ))
    (h1 : 0 ≤ cfg.Psi1) (h2 : 0 ≤ cfg.Psi2) (h3 : 0 ≤ cfg.Psi3)
    (hsum : cfg.Psi1 + cfg.Psi2 + cfg.Psi3 = 1)
    (hsA : ∀ v ∈ trajA, 0 ≤ v.Speed) (hsB : ∀ v ∈ trajB, 0 ≤ v.Speed)
    (hdA : ∀ v ∈ trajA, -Real.pi ≤ v.Direction ∧ v.Direction ≤ Real.pi)
    (hdB : ∀ v ∈ trajB, -Real.pi ≤ v.Direction ∧ v.Direction ≤ Real.pi) :
    (0 ≤ computeTrajectorySimilarity realMath cfg trajA trajB ∧
      computeTrajectorySimilarity realMath cfg trajA trajB ≤ 1) ∧
    (trajA ≠ [] → trajB ≠ [] →
      (0 ≤ computeSpeedDifference trajA trajB ∧ computeSpeedDifference trajA trajB ≤ 1) ∧
      (0 ≤ computeLocationDifference trajA trajB ∧ computeLocationDifference trajA trajB ≤ 1) ∧
      (0 ≤ computeDirectionDifference realMath trajA trajB ∧
        computeDirectionDifference realMath trajA trajB ≤ 1)) := by
  obtain ⟨s0, s1⟩ := computeSpeedDifference_mem trajA trajB hsA hsB
  obtain ⟨l0, l1⟩ := computeLocationDifference_mem trajA trajB
  obtain ⟨d0, d1⟩ := computeDirectionDifference_mem trajA trajB hdA hdB
  refine ⟨?_, fun _ _ => ⟨⟨s0, s1⟩, ⟨l0, l1⟩, ⟨d0, d1⟩⟩⟩
  unfold computeTrajectorySimilarity
  split_ifs with hemp
  · exact ⟨le_refl _, zero_le_one⟩
  · have e1 := mul_le_mul_of_nonneg_left s1 h1
    have e2 := mul_le_mul_of_nonneg_left l1 h2
    have e3 := mul_le_mul_of_nonneg_left d1 h3
    have f1 := mul_nonneg h1 s0
    have f2 := mul_nonneg h2 l0
    have f3 := mul_nonneg h3 d0
    dsimp only
    constructor <;> linarith

/-- C22 at a concrete input: the sample configuration and two trajectories of
two samples each, with headings 0, 1 and -1, 3. -/
theorem C22_witness :
    0 ≤ computeTrajectorySimilarity realMath sampleConfig
        [⟨10, 0.1, 0⟩, ⟨12, 0.2, 1⟩] [⟨8, 0.1, -1⟩, ⟨9, 0.5, 3⟩] ∧
    computeTrajectorySimilarity realMath sampleConfig
        [⟨10, 0.1, 0⟩, ⟨12, 0.2, 1⟩] [⟨8, 0.1, -1⟩, ⟨9, 0.5, 3⟩] ≤ 1 :=
  (C22_trajectorySimilarity_in_unit_interval sampleConfig
    [⟨10, 0.1, 0⟩, ⟨12, 0.2, 1⟩] [⟨8, 0.1, -1⟩, ⟨9, 0.5, 3⟩]
    (by norm_num [sampleConfig]) (by norm_num [sampleConfig]) (by norm_num [sampleConfig])
    (by norm_num [sampleConfig])
    (by
      intro v hv
      simp only [List.mem_cons, List.mem_singleton, List.not_mem_nil, or_false] at hv
      rcases hv with rfl | rfl <;> norm_num)
    (by
      intro v hv
      simp only [List.mem_cons, List.mem_singleton, List.not_mem_nil, or_false] at hv
      rcases hv with rfl | rfl <;> norm_num)
    (by
      have := Real.pi_gt_three
      intro v hv
      simp only [List.mem_cons, List.mem_singleton, List.not_mem_nil, or_false] at hv
      rcases hv with rfl | rfl <;> constructor <;> norm_num <;> linarith)
    (by
      have := Real.pi_gt_three
      intro v hv
      simp only [List.mem_cons, List.mem_singleton, List.not_mem_nil, or_false] at hv
      rcases hv with rfl | rfl <;> constructor <;> norm_num <;> linarith)).1

/-- C23: for commQuality in [0, 1] and Gamma in [0, 1], at every point of the
region p >= 0, n >= 0, p + n > 0 the score
opinionToReputation(computeLocalOpinion(p, n, commQuality)) does not decrease
when p is raised, does not increase when n is raised, and lies in [0, 1]. -/
theorem C23_score_monotone_and_bounded (cfg : Config ℝ) (commQuality p n : ℝ)
    (hg0 : 0 ≤ cfg.Gamma) (hg1 : cfg.Gamma ≤ 1) (hc0 : 0 ≤ commQuality)
    (hc1 : commQuality ≤ 1) (hp : 0 ≤ p) (hn : 0 ≤ n) (hpos : 0 < p + n) :
    (∀ q, p ≤ q →
      opinionToReputation cfg (computeLocalOpinion realMath p n commQuality) ≤
        opinionToReputation cfg (computeLocalOpinion realMath q n commQuality)) ∧
    (∀ m, n ≤ m →
      opinionToReputation cfg (computeLocalOpinion realMath p m commQuality) ≤
        opinionToReputation cfg (computeLocalOpinion realMath p n commQuality)) ∧
    0 ≤ opinionToReputation cfg (computeLocalOpinion realMath p n commQuality) ∧
    opinionToReputation cfg (computeLocalOpinion realMath p n commQuality) ≤ 1 :=
  ⟨fun q hq => reputation_mono_in_pos cfg commQuality p q n hg0 hg1 hc0 hp hn hpos hq,
    fun m hm => reputation_anti_in_neg cfg commQuality p n m hg0 hg1 hc0 hp hn hpos hm,
    reputation_mem_unit cfg commQuality p n hg0 hg1 hc0 hc1 hp hn hpos⟩

/-- C23 at a concrete input: the sample configuration (Gamma = 0.5),
commQuality = 0.9, the point (3, 2) compared with (5, 2) and (3, 4). -/
theorem C23_witness :
    opinionToReputation sampleConfig (computeLocalOpinion realMath 3 2 0.9) ≤
        opinionToReputation sampleConfig (computeLocalOpinion realMath 5 2 0.9) ∧
    opinionToReputation sampleConfig (computeLocalOpinion realMath 3 4 0.9) ≤
        opinionToReputation sampleConfig (computeLocalOpinion realMath 3 2 0.9) ∧
    0 ≤ opinionToReputation sampleConfig (computeLocalOpinion realMath 3 2 0.9) ∧
    opinionToReputation sampleConfig (computeLocalOpinion realMath 3 2 0.9) ≤ 1 :=
  have h := C23_score_monotone_and_bounded sampleConfig 0.9 3 2
    (by norm_num [sampleConfig]) (by norm_num [sampleConfig]) (by norm_num) (by norm_num)
    (by norm_num) (by norm_num) (by norm_num)
  ⟨h.1 5 (by norm_num), h.2.1 4 (by norm_num), h.2.2⟩

end Reputation
